import Mathlib

/-!
# src-cli: diff grouping, overridable fields, the execution cache and commands

A shallow embedding of the parts of `internal/campaigns` and `cmd/src` that
the properties below are about.

* `OverridableBool.IsRepoPublished` and `OverridableString.Value` are
  translated from `src/internal/campaigns/campaign_spec.go`.
* `inMemoryExecutionCache` is translated from
  `src/internal/campaigns/executor_test.go`.
* `campaignsDefaultTempDirPrefix`, `campaignsOpenFileFlag` and
  `campaignsExecute` are translated from `src/cmd/src/campaigns_common.go`;
  the environment, the platform and the service are arguments.
* `matchesImageFilter` and `getImageList` are translated from
  `src/cmd/src/sbom_utils.go`; `filepath.Match` and `http.Get` are arguments.
* `groupFileDiffs` and `validateGroups` are called by
  `src/internal/campaigns/executor_test.go` but their bodies are not part of
  the sources at hand; they are modelled from section 4.G of the
  specification, and the texts of the errors and the concrete cases are those
  of `TestGroupFileDiffs` and `TestValidateGroups`.
-/

namespace SrcCli

set_option maxRecDepth 8000

/-! ## Go maps keyed by strings -/

/-- A Go `map[string]V`, kept as an association list with one entry per key.
Only `lookup` observes it, so the order of the entries carries no meaning. -/
def GoMap (V : Type) : Type := List (String × V)

namespace GoMap

/-- The map `make(map[string]V)`. -/
def empty {V : Type} : GoMap V := []

/-- The Go expression `v, ok := m[k]`: `none` when the key is absent. -/
def lookup {V : Type} : GoMap V → String → Option V
  | [], _ => none
  | (k', v) :: rest, k => if k' = k then some v else lookup rest k

/-- The Go statement `m[k] = v`. -/
def store {V : Type} : GoMap V → String → V → GoMap V
  | [], k, v => [(k, v)]
  | (k', v') :: rest, k, v =>
    if k' = k then (k, v) :: rest else (k', v') :: store rest k v

/-- The keys of the map, `for k := range m`. -/
def keys {V : Type} : GoMap V → List String
  | [] => []
  | (k, _) :: rest => k :: keys rest

/-- A map with the same keys and `f` applied to every value. -/
def mapValues {V W : Type} (f : V → W) : GoMap V → GoMap W
  | [] => []
  | (k, v) :: rest => (k, f v) :: mapValues f rest

end GoMap

/-! ## Diff grouping (`groupFileDiffs`) -/

/-- A `Group` of `transformChanges`, with the fields the struct literals of
`executor_test.go` use (`Directory`, `Branch`, `Repository`). -/
structure Group where
  Directory : String
  Branch : String
  Repository : String := ""
deriving DecidableEq, Repr

/-- One file of a multi-file diff, as `diff.ParseMultiFileDiff` returns it:
the two names the test helper reads (`OrigName`, `NewName`) and the text of
the file diff. -/
structure FileDiff where
  OrigName : String
  NewName : String
  Text : String
deriving DecidableEq, Repr

/-- The path a file diff is filed under: `NewName`, or `OrigName` when the
file was deleted (`fd.NewName == "/dev/null"`, as in the `diffsByName` loop
of `executor_test.go`). -/
def FileDiff.path (f : FileDiff) : String :=
  if f.NewName = "/dev/null" then f.OrigName else f.NewName

/-- The text of a list of file diffs: their texts one after the other, the
way the expected values of `TestGroupFileDiffs` are built (`diff1 + diff2`). -/
def printMultiFileDiff : List FileDiff → String
  | [] => ""
  | f :: rest => f.Text ++ printMultiFileDiff rest

/-- Modelled from the spec: the body of groupFileDiffs is missing from the
sources; this is the test of step 2 of section 4.G, "group.directory is a
prefix of the file path (treating the empty string as matching everything)":
the empty string is a prefix of every path. The last case of
`TestGroupFileDiffs` expects the files under the default branch for a group
with an empty directory, which this sentence of the specification does not
give; that one case is not reproduced here. -/
def directoryMatches (directory path : String) : Bool :=
  directory.data.isPrefixOf path.data

/-- Modelled from the spec: the body of groupFileDiffs is missing from the
sources; steps 1 and 2 of section 4.G. `branch` is the branch chosen so far,
`defaultBranch` at the start; for each group in order, when its directory
matches the path the branch is set to the group's branch, so that the last
match wins. -/
def branchOf (branch : String) : List Group → String → String
  | [], _ => branch
  | g :: rest, path =>
    if directoryMatches g.Directory path then branchOf g.Branch rest path
    else branchOf branch rest path

/-- Step 3 of section 4.G for one file diff: append it to the accumulator of
its branch (`byBranch[branch] = append(byBranch[branch], f)`; a missing key
reads as the empty list). -/
def emit (byBranch : GoMap (List FileDiff)) (branch : String) (f : FileDiff) :
    GoMap (List FileDiff) :=
  byBranch.store branch ((byBranch.lookup branch).getD [] ++ [f])

/-- The accumulators after a run of file diffs has been emitted. -/
def emitAll (defaultBranch : String) (groups : List Group) :
    GoMap (List FileDiff) → List FileDiff → GoMap (List FileDiff)
  | byBranch, [] => byBranch
  | byBranch, f :: rest =>
    emitAll defaultBranch groups (emit byBranch (branchOf defaultBranch groups f.path) f) rest

/-- Modelled from the spec: the body of groupFileDiffs is missing from the
sources; the algorithm of section 4.G on parsed file diffs. The map starts
with an entry for `defaultBranch` ("the map always contains an entry for
defaultBranch, possibly with empty text") and every file diff is emitted
under the branch chosen for its path. -/
def groupParsed (defaultBranch : String) (groups : List Group)
    (fileDiffs : List FileDiff) : GoMap (List FileDiff) :=
  emitAll defaultBranch groups (GoMap.empty.store defaultBranch []) fileDiffs

/-- Modelled from the spec: the caller of groupFileDiffs is missing from the
sources; step 2 of section 4.G, "if group.repository is set it must equal
repoName": the groups that apply to a repository. -/
def groupsForRepository (repoName : String) (groups : List Group) : List Group :=
  groups.filter (fun g => g.Repository = "" || g.Repository = repoName)

/-- Modelled from the spec: the body of groupFileDiffs is missing from the
sources (only `TestGroupFileDiffs` calls it, as
`groupFileDiffs(tc.diff, defaultBranch, tc.groups)`); section 4.G: parse the
unified diff into per-file diffs, group them, return branch to diff text.
`parse` stands for `diff.ParseMultiFileDiff` of the go-diff library; a parse
error is returned as the error of the call. The call has no repository name:
the groups it is given are the ones that apply to the repository
(`groupsForRepository`). -/
def groupFileDiffs (parse : String → Except String (List FileDiff))
    (completeDiff defaultBranch : String) (groups : List Group) :
    Except String (GoMap String) :=
  match parse completeDiff with
  | .error e => .error e
  | .ok fileDiffs =>
    .ok ((groupParsed defaultBranch groups fileDiffs).mapValues printMultiFileDiff)

/-! ### A line-based reader of git diffs and the data of `TestGroupFileDiffs`

The theorems on `groupFileDiffs` hold for every parser. The concrete cases
need one: `parseMultiFileDiff` reads the `diff --git` layout of the test's
inputs, a file diff running from one `diff --git` line to the next. -/

/-- The lines of a text, each with its line feed; `cur` is the line being
read, last character first. -/
def splitLines : List Char → List Char → List (List Char)
  | [], [] => []
  | [], c :: cur => [(c :: cur).reverse]
  | c :: cs, cur =>
    if c = Char.ofNat 10 then (c :: cur).reverse :: splitLines cs []
    else splitLines cs (c :: cur)

/-- A line without its line feed. -/
def chomp (line : List Char) : List Char :=
  line.filter (fun c => c ≠ Char.ofNat 10)

/-- Add one line to the file diff being read: the first `--- ` and `+++ `
lines give the two names. -/
def addLine (f : FileDiff) (line : List Char) : FileDiff :=
  let text := f.Text ++ String.mk line
  if "--- ".data.isPrefixOf line && f.OrigName = "" then
    { f with OrigName := String.mk (chomp (line.drop 4)), Text := text }
  else if "+++ ".data.isPrefixOf line && f.NewName = "" then
    { f with NewName := String.mk (chomp (line.drop 4)), Text := text }
  else { f with Text := text }

/-- Read the lines of a diff; `cur` is the file diff being read. A line
before the first `diff --git` line is an error. -/
def parseLines : List (List Char) → Option FileDiff → Except String (List FileDiff)
  | [], none => .ok []
  | [], some f => .ok [f]
  | line :: rest, cur =>
    if "diff --git ".data.isPrefixOf line then
      match parseLines rest (some { OrigName := "", NewName := "", Text := String.mk line }) with
      | .error e => .error e
      | .ok fs =>
        match cur with
        | none => .ok fs
        | some f => .ok (f :: fs)
    else
      match cur with
      | none => .error "text before the first file header"
      | some f => parseLines rest (some (addLine f line))

/-- The reader used in the concrete cases below. -/
def parseMultiFileDiff (completeDiff : String) : Except String (List FileDiff) :=
  parseLines (splitLines completeDiff.data []) none

/-- The value `diff1` of `TestGroupFileDiffs`. -/
def diff1 : String :=
  "diff --git 1/1.txt 1/1.txt\nnew file mode 100644\nindex 0000000..19d6416\n--- /dev/null\n+++ 1/1.txt\n@@ -0,0 +1,1 @@\n+this is 1\n"

/-- The value `diff2` of `TestGroupFileDiffs`. -/
def diff2 : String :=
  "diff --git 1/2/2.txt 1/2/2.txt\nnew file mode 100644\nindex 0000000..c825d65\n--- /dev/null\n+++ 1/2/2.txt\n@@ -0,0 +1,1 @@\n+this is 2\n"

/-- The value `diff3` of `TestGroupFileDiffs`. -/
def diff3 : String :=
  "diff --git 1/2/3/3.txt 1/2/3/3.txt\nnew file mode 100644\nindex 0000000..1bd79fb\n--- /dev/null\n+++ 1/2/3/3.txt\n@@ -0,0 +1,1 @@\n+this is 3\n"

/-- The value `allDiffs` of `TestGroupFileDiffs`. -/
def allDiffs : String := diff1 ++ diff2 ++ diff3

/-- The first file diff of `allDiffs`. -/
def fileDiff1 : FileDiff := { OrigName := "/dev/null", NewName := "1/1.txt", Text := diff1 }

/-- The second file diff of `allDiffs`. -/
def fileDiff2 : FileDiff := { OrigName := "/dev/null", NewName := "1/2/2.txt", Text := diff2 }

/-- The third file diff of `allDiffs`. -/
def fileDiff3 : FileDiff := { OrigName := "/dev/null", NewName := "1/2/3/3.txt", Text := diff3 }

/-- A file diff is emitted under a branch when the branch has an entry and
the file diff is in its list. -/
def EmittedUnder (byBranch : GoMap (List FileDiff)) (branch : String) (f : FileDiff) : Prop :=
  ∃ fs, byBranch.lookup branch = some fs ∧ f ∈ fs

/-- The group `g` is the last group of the list, in list order, whose
directory matches the path. -/
def Captures (groups : List Group) (g : Group) (path : String) : Prop :=
  ∃ pre post, groups = pre ++ g :: post ∧ directoryMatches g.Directory path = true ∧
    ∀ h ∈ post, directoryMatches h.Directory path = false

/-- The groups of the fourth case of `TestGroupFileDiffs`. -/
def groupsOnlyIn123 : List Group :=
  [{ Directory := "1", Branch := "only-in-1" },
   { Directory := "1/2", Branch := "only-in-2" },
   { Directory := "1/2/3", Branch := "only-in-3" }]

/-- The groups of the fifth case of `TestGroupFileDiffs`: the same groups in
reverse order. -/
def groupsOnlyIn321 : List Group :=
  [{ Directory := "1/2/3", Branch := "only-in-3" },
   { Directory := "1/2", Branch := "only-in-2" },
   { Directory := "1", Branch := "only-in-1" }]

/-! ## Group validation (`validateGroups`) -/

/-- A hexadecimal digit, in lower case. -/
def hexDigit (n : Nat) : Char :=
  if n < 10 then Char.ofNat (48 + n) else Char.ofNat (87 + n)

/-- One character as `strconv.Quote` writes it between double quotes: a
backslash before a double quote and before a backslash; the printable
characters of ASCII as they are; the escapes `\a`, `\b`, `\f`, `\n`, `\r`,
`\t`, `\v`; `\x` and two hexadecimal digits for the other control characters
of ASCII. A character above ASCII is written as it is: Go escapes the ones
that are not printable (with `\u` or `\U`), which is not modelled. -/
def quoteChar (c : Char) : List Char :=
  let n := c.toNat
  let backslash := Char.ofNat 92
  if n = 34 ∨ n = 92 then [backslash, c]
  else if 32 ≤ n ∧ n < 127 then [c]
  else if n = 7 then [backslash, 'a']
  else if n = 8 then [backslash, 'b']
  else if n = 12 then [backslash, 'f']
  else if n = 10 then [backslash, 'n']
  else if n = 13 then [backslash, 'r']
  else if n = 9 then [backslash, 't']
  else if n = 11 then [backslash, 'v']
  else if n < 32 ∨ n = 127 then [backslash, 'x', hexDigit (n / 16), hexDigit (n % 16)]
  else [c]

/-- The characters of a text as `strconv.Quote` writes them. -/
def quoteChars : List Char → List Char
  | [] => []
  | c :: rest => quoteChar c ++ quoteChars rest

/-- The verb `%q` of Go's `fmt` on a string (`strconv.Quote`): the text
between double quotes, its characters written by `quoteChar`. -/
def quoted (s : String) : String :=
  String.mk (Char.ofNat 34 :: quoteChars s.data ++ [Char.ofNat 34])

/-- Modelled from the spec: the body of validateGroups is missing from the
sources; "any two groups in the same repository share a branch": the first
branch, in list order, that a group before it already has. `seen` holds the
branches of the groups gone through. -/
def sharedBranch (seen : List String) : List Group → Option String
  | [] => none
  | g :: rest =>
    if g.Branch ∈ seen then some g.Branch else sharedBranch (g.Branch :: seen) rest

/-- Modelled from the spec: the body of validateGroups is missing from the
sources (only `TestValidateGroups` calls it, as
`validateGroups(repoName, defaultBranch, tc.groups)`); the pre-validation of
section 4.G: "fails if any two groups in the same repository share a branch,
or if any group's branch equals the template's default branch". The two
messages are the ones `TestValidateGroups` expects. The specification does
not say which of the two is reported for a list that has both faults; the
shared branch is looked for first here, the order of its sentence. -/
def validateGroups (repoName defaultBranch : String) (groups : List Group) :
    Except String Unit :=
  match sharedBranch [] groups with
  | some branch =>
    .error ("transformChanges would lead to multiple changesets in repository "
      ++ repoName ++ " to have the same branch " ++ quoted branch)
  | none =>
    if groups.any (fun g => g.Branch = defaultBranch) then
      .error ("transformChanges group branch for repository " ++ repoName
        ++ " is the same as branch " ++ quoted defaultBranch ++ " in changesetTemplate")
    else .ok ()

/-! ## Overridable booleans (`campaign_spec.go`) -/

/-- A compiled `glob.Glob` of `github.com/gobwas/glob`: the code calls its
`Match` method only. -/
structure Glob where
  Match : String → Bool

/-- The struct `graphql.Repository`, of which `IsRepoPublished` reads `Name`. -/
structure Repository where
  Name : String
deriving DecidableEq, Repr

/-- The struct `OnlyExcept`: the patterns as written and, in the unexported
fields, the globs compiled from them. -/
structure OnlyExcept where
  Only : List String
  Except : List String
  only : List Glob
  except : List Glob

/-- The struct `OverridableBool`: `Default *bool` and the embedded
`OnlyExcept`. -/
structure OverridableBool extends OnlyExcept where
  Default : Option Bool

/-- The loop `for _, g := range globs` with a `return` under
`if g.Match(name)`: whether the loop returns from its body. -/
def matchesAny : List Glob → String → Bool
  | [], _ => false
  | g :: rest, name => if g.Match name then true else matchesAny rest name

/-- The method `(*OverridableBool).IsRepoPublished`. -/
def OverridableBool.IsRepoPublished (p : OverridableBool) (repo : Repository) : Bool :=
  match p.Default with
  | some d => d
  | none =>
    if p.only.length > 0 then
      if matchesAny p.only repo.Name then true else false
    else
      if matchesAny p.except repo.Name then false else true

/-- The glob compiled from a pattern without special characters: it matches
that one name. -/
def literalGlob (pattern : String) : Glob :=
  { Match := fun name => decide (name = pattern) }

/-- The glob compiled from `prefix*`: it matches the names that start with
the text before the star. -/
def prefixGlob (start : String) : Glob :=
  { Match := fun name => start.data.isPrefixOf name.data }

/-- The Go statement `delete(m, k)`. -/
def GoMap.delete {V : Type} : GoMap V → String → GoMap V
  | [], _ => []
  | (k', v) :: rest, k =>
    if k' = k then GoMap.delete rest k else (k', v) :: GoMap.delete rest k

/-! ## Overridable strings (`campaign_spec.go`) -/

/-- The struct `MatchValue`: the pattern and the value as written, and the
glob compiled from the pattern (the unexported field `match`, a keyword
here). -/
structure MatchValue where
  Match : String
  Value : String
  matchGlob : Glob

/-- The struct `OverridableString`. -/
structure OverridableString where
  Default : String
  Only : List MatchValue

/-- The loop of `(*OverridableString).Value` and the `return o.Default` after
it: the value of the first rule whose glob matches the name, `dflt` when the
loop ends without returning. -/
def valueOf (dflt : String) : List MatchValue → String → String
  | [], _ => dflt
  | mv :: rest, name => if mv.matchGlob.Match name then mv.Value else valueOf dflt rest name

/-- The method `(*OverridableString).Value`. -/
def OverridableString.Value (o : OverridableString) (repo : Repository) : String :=
  valueOf o.Default o.Only repo.Name

/-! ## The in-memory execution cache (`executor_test.go`) -/

/-- The changed files of an execution result, as the specification lists
them (section 3: modified, added, deleted, renamed). -/
structure ChangedFiles where
  Modified : List String
  Added : List String
  Deleted : List String
  Renamed : List String
deriving DecidableEq, Repr

/-- Modelled from the spec: the declaration of ExecutionResult is missing from
the sources; the fields of the cache entry of sections 3 and 6 (diff, changed
files, outputs). The cache stores and returns these values whole. -/
structure ExecutionResult where
  Diff : String
  ChangedFiles : ChangedFiles
  Outputs : List (String × String)
deriving DecidableEq, Repr

/-- The Go value `ExecutionResult{}`. -/
def ExecutionResult.zero : ExecutionResult :=
  { Diff := "", ChangedFiles := { Modified := [], Added := [], Deleted := [], Renamed := [] },
    Outputs := [] }

/-- An `ExecutionCacheKey`, of which the cache calls the method `Key()` only:
the key is kept as what that call returns, the key string or an error. -/
structure ExecutionCacheKey where
  Key : Except String String

/-- The struct `inMemoryExecutionCache`. The mutex `mu` is left out: every
method holds it from start to end, so the methods run one after the other. -/
structure inMemoryExecutionCache where
  cache : GoMap ExecutionResult

/-- The function `newInMemoryExecutionCache`. -/
def newInMemoryExecutionCache : inMemoryExecutionCache :=
  { cache := GoMap.empty }

/-- The method `(*inMemoryExecutionCache).Get`: the three results, the error
last (`none` for `nil`). -/
def inMemoryExecutionCache.Get (c : inMemoryExecutionCache) (key : ExecutionCacheKey) :
    ExecutionResult × Bool × Option String :=
  match key.Key with
  | .error err => (ExecutionResult.zero, false, some err)
  | .ok k =>
    match c.cache.lookup k with
    | some res => (res, true, none)
    | none => (ExecutionResult.zero, false, none)

/-- The method `(*inMemoryExecutionCache).Set`: the cache after the call and
the error it returns. -/
def inMemoryExecutionCache.Set (c : inMemoryExecutionCache) (key : ExecutionCacheKey)
    (result : ExecutionResult) : inMemoryExecutionCache × Option String :=
  match key.Key with
  | .error err => (c, some err)
  | .ok k => ({ cache := c.cache.store k result }, none)

/-- The method `(*inMemoryExecutionCache).Clear`: the cache after the call and
the error it returns. -/
def inMemoryExecutionCache.Clear (c : inMemoryExecutionCache) (key : ExecutionCacheKey) :
    inMemoryExecutionCache × Option String :=
  match key.Key with
  | .error err => (c, some err)
  | .ok k => ({ cache := c.cache.delete k }, none)

/-- The result of a run that added files: its diff and the added files. -/
def resultAdding (diff : String) (added : List String) : ExecutionResult :=
  { Diff := diff, Outputs := [],
    ChangedFiles := { Modified := [], Added := added, Deleted := [], Renamed := [] } }

/-- The method `(*inMemoryExecutionCache).size`. -/
def inMemoryExecutionCache.size (c : inMemoryExecutionCache) : Nat :=
  c.cache.keys.length

/-! ## The campaign command (`cmd/src/campaigns_common.go`) -/

/-- The function `campaignsDefaultTempDirPrefix`. The process environment and
the platform are arguments: `getenv` is `os.Getenv` (the empty string for a
variable that is not set), `goos` is `runtime.GOOS` and `osTempDir` is what
`os.TempDir()` returns. -/
def campaignsDefaultTempDirPrefix (getenv : String → String) (goos osTempDir : String) :
    String :=
  let p := getenv "SRC_CAMPAIGNS_TMP_DIR"
  if p ≠ "" then p
  else if goos = "darwin" then "/tmp"
  else osTempDir

/-- The struct `campaignsApplyFlags` without its field `api`. The field
`namespace` is named `namespaceName`, the Go name being a keyword here;
`timeout` is the duration in nanoseconds. -/
structure campaignsApplyFlags where
  allowUnsupported : Bool
  apply : Bool
  cacheDir : String
  tempDir : String
  clearCache : Bool
  file : String
  keep : Bool
  namespaceName : String
  parallelism : Int
  timeout : Int
deriving DecidableEq, Repr

/-- The struct `campaigns.ExecutorOpts` as `campaignsExecute` fills it; the
cache is known by the directory it was made for. -/
structure ExecutorOpts where
  Cache : String
  ClearCache : Bool
  KeepLogs : Bool
  Timeout : Int
  TempDir : String
  Parallelism : Int
deriving DecidableEq, Repr

/-- An `io.ReadCloser` that `campaignsOpenFileFlag` returns: the standard
input or the file opened at a path. -/
inductive ReadCloser where
  | stdin
  | file (path : String)
deriving DecidableEq, Repr

/-- An error value of `campaignsExecute`: a `usageError` or another error,
each known by its message. -/
inductive Err where
  | usage (message : String)
  | other (message : String)
deriving DecidableEq, Repr

/-- The error `campaignsExecute` returns: a `*multierror.Error` with the
errors appended to it, or a single error. -/
inductive ExecError where
  | multi (errs : List Err)
  | single (err : Err)
deriving DecidableEq, Repr

/-- The function `campaignsOpenFileFlag`. `osOpen` is `os.Open`, `flag` the
pointer (`none` for nil). -/
def campaignsOpenFileFlag (osOpen : String → Except String ReadCloser) (flag : Option String) :
    Except Err ReadCloser :=
  match flag with
  | none => .ok ReadCloser.stdin
  | some name =>
    if name = "" ∨ name = "-" then .ok ReadCloser.stdin
    else
      match osOpen name with
      | .error err => .error (Err.other ("cannot open file " ++ quoted name ++ ": " ++ err))
      | .ok file => .ok file

/-- The struct `Step` of `campaign_spec.go`. -/
structure Step where
  Run : String
  Container : String
  Env : GoMap String
  image : String

/-- The struct `OnQueryOrRepository` of `campaign_spec.go`. -/
structure OnQueryOrRepository where
  RepositoriesMatchingQuery : String
  Repository : String
  Branch : String
deriving DecidableEq, Repr

/-- The struct `ImportChangeset` of `campaign_spec.go`; the external ids are
kept as text. -/
structure ImportChangeset where
  Repository : String
  ExternalIDs : List String
deriving DecidableEq, Repr

/-- The struct `ExpandedGitCommitDescription` of `campaign_spec.go`. -/
structure ExpandedGitCommitDescription where
  Message : String
deriving DecidableEq, Repr

/-- The struct `ChangesetTemplate` of `campaign_spec.go`. -/
structure ChangesetTemplate where
  Title : OverridableString
  Body : String
  Branch : String
  Commit : ExpandedGitCommitDescription
  Published : OverridableBool

/-- The struct `CampaignSpec` of `campaign_spec.go`. -/
structure CampaignSpec where
  Name : String
  Description : String
  On : List OnQueryOrRepository
  Steps : List Step
  ImportChangesets : List ImportChangeset
  ChangesetTemplate : Option ChangesetTemplate

/-- A commit of a changeset spec, with the fields `executor_test.go` reads. -/
structure GitCommitDescription where
  Message : String
  Diff : String
  AuthorName : String
  AuthorEmail : String
deriving DecidableEq, Repr

/-- A `campaigns.ChangesetSpec`, with the fields `executor_test.go` reads. -/
structure ChangesetSpec where
  BaseRepository : String
  HeadRef : String
  Title : String
  Body : String
  Commits : List GitCommitDescription
deriving DecidableEq, Repr

/-- The error of `ResolveRepositories` as `campaignsExecute` tells it apart:
a `campaigns.UnsupportedRepoSet` or any other error. -/
inductive ResolveError where
  | unsupported (repoSet : List Repository)
  | other (message : String)
deriving DecidableEq, Repr

/-- The `campaigns.Service` and the helper `campaignsValidateSpec` as
`campaignsExecute` uses them: each call by what it returns for its arguments.
The context argument is left out. `SetDockerImages` returns the spec with the
images it has set. -/
structure Service where
  ParseCampaignSpec : ReadCloser → Except String (CampaignSpec × String)
  ValidateSpec : CampaignSpec → Option Err
  ResolveNamespace : String → Except Err String
  SetDockerImages : CampaignSpec → Except Err CampaignSpec
  ResolveRepositories : CampaignSpec → List Repository × Option ResolveError
  ExecuteCampaignSpec : List Repository → ExecutorOpts → CampaignSpec →
    Except Err (List ChangesetSpec)
  CreateChangesetSpec : ChangesetSpec → Except Err String
  CreateCampaignSpec : String → String → List String → Except Err (String × String)

/-- What `campaignsExecute` does besides returning: the calls on the service,
in the order they are made, and the closing of the spec file. The lines,
progress bars and blocks written to `out` are not recorded, nor is the
reading of `executor.LogFiles()`, which is only printed. -/
inductive Event where
  | NewExecutionCache (cacheDir : String)
  | NewExecutor (opts : ExecutorOpts)
  | ParseCampaignSpec (specFile : ReadCloser)
  | ValidateSpec
  | ResolveNamespace (name : String)
  | SetDockerImages
  | ResolveRepositories
  | ExecuteCampaignSpec (repos : List Repository)
  | CreateChangesetSpec (spec : ChangesetSpec)
  | CreateCampaignSpec (namespaceID rawSpec : String) (ids : List String)
  | Close (specFile : ReadCloser)
deriving DecidableEq, Repr

/-- The options `campaignsExecute` builds for the executor; `gomaxprocs` is
what `runtime.GOMAXPROCS(0)` returns. -/
def executorOpts (gomaxprocs : Int) (flags : campaignsApplyFlags) : ExecutorOpts :=
  { Cache := flags.cacheDir,
    ClearCache := flags.clearCache,
    KeepLogs := flags.keep,
    Timeout := flags.timeout,
    TempDir := flags.tempDir,
    Parallelism := if flags.parallelism ≤ 0 then gomaxprocs else flags.parallelism }

/-- The loop of `campaignsExecute` that sends the changeset specs: the ids in
the order of the specs, or the first error, and the calls made. -/
def sendChangesetSpecs (svc : Service) :
    List ChangesetSpec → Except Err (List String) × List Event
  | [] => (.ok [], [])
  | spec :: rest =>
    match svc.CreateChangesetSpec spec with
    | .error err => (.error err, [Event.CreateChangesetSpec spec])
    | .ok id =>
      match sendChangesetSpecs svc rest with
      | (.error err, events) => (.error err, Event.CreateChangesetSpec spec :: events)
      | (.ok ids, events) => (.ok (id :: ids), Event.CreateChangesetSpec spec :: events)

/-- The part of `campaignsExecute` after the check of the flags, from
"Parsing campaign spec" to the end: the three results and the calls made. -/
def campaignsExecuteSpec (svc : Service) (opts : ExecutorOpts) (flags : campaignsApplyFlags)
    (specFile : ReadCloser) : (String × String × Option ExecError) × List Event :=
  match svc.ParseCampaignSpec specFile with
  | .error err =>
    (("", "", some (.single (Err.other ("parsing campaign spec: " ++ err)))),
      [Event.ParseCampaignSpec specFile])
  | .ok (campaignSpec, rawSpec) =>
    match svc.ValidateSpec campaignSpec with
    | some err =>
      (("", "", some (.single err)), [Event.ParseCampaignSpec specFile, Event.ValidateSpec])
    | none =>
      match svc.ResolveNamespace flags.namespaceName with
      | .error err =>
        (("", "", some (.single err)),
          [Event.ParseCampaignSpec specFile, Event.ValidateSpec,
            Event.ResolveNamespace flags.namespaceName])
      | .ok namespaceID =>
        let resolved := [Event.ParseCampaignSpec specFile, Event.ValidateSpec,
          Event.ResolveNamespace flags.namespaceName, Event.SetDockerImages]
        match svc.SetDockerImages campaignSpec with
        | .error err => (("", "", some (.single err)), resolved)
        | .ok campaignSpec =>
          match svc.ResolveRepositories campaignSpec with
          | (_, some (ResolveError.other message)) =>
            (("", "", some (.single (Err.other ("resolving repositories: " ++ message)))),
              resolved ++ [Event.ResolveRepositories])
          | (repos, _) =>
            let executing := resolved ++ [Event.ResolveRepositories,
              Event.ExecuteCampaignSpec repos]
            match svc.ExecuteCampaignSpec repos opts campaignSpec with
            | .error err => (("", "", some (.single err)), executing)
            | .ok specs =>
              let sent := (sendChangesetSpecs svc specs).2
              match (sendChangesetSpecs svc specs).1 with
              | .error err => (("", "", some (.single err)), executing ++ sent)
              | .ok ids =>
                match svc.CreateCampaignSpec namespaceID rawSpec ids with
                | .error err =>
                  (("", "", some (.single err)),
                    executing ++ sent ++ [Event.CreateCampaignSpec namespaceID rawSpec ids])
                | .ok (id, url) =>
                  ((id, url, none),
                    executing ++ sent ++ [Event.CreateCampaignSpec namespaceID rawSpec ids])

/-- The function `campaignsExecute`: the three results (spec id, spec URL,
error) and the calls it has made. The spec file, when it was opened, is
closed on return (`defer specFile.Close()`). -/
def campaignsExecute (osOpen : String → Except String ReadCloser) (gomaxprocs : Int)
    (svc : Service) (flags : campaignsApplyFlags) :
    (String × String × Option ExecError) × List Event :=
  let opened := campaignsOpenFileFlag osOpen (some flags.file)
  let errs : List Err :=
    match opened with
    | .error err => [err]
    | .ok _ => []
  let closing : List Event :=
    match opened with
    | .error _ => []
    | .ok specFile => [Event.Close specFile]
  let errs : List Err :=
    if flags.namespaceName = "" then
      errs ++ [Err.usage "a namespace must be provided with -namespace"]
    else errs
  let opts := executorOpts gomaxprocs flags
  let made := [Event.NewExecutionCache flags.cacheDir, Event.NewExecutor opts]
  if errs ≠ [] then (("", "", some (.multi errs)), made ++ closing)
  else
    match opened with
    | .error _ => (("", "", some (.multi errs)), made ++ closing)
    | .ok specFile =>
      let (results, events) := campaignsExecuteSpec svc opts flags specFile
      (results, made ++ events ++ closing)

/-- A file system with the one file `campaign.yaml`, for the concrete cases:
`os.Open` of any other path fails. -/
def openCampaignYaml (path : String) : Except String ReadCloser :=
  if path = "campaign.yaml" then .ok (ReadCloser.file path)
  else .error ("open " ++ path ++ ": no such file or directory")

/-- A service for the concrete cases: every call succeeds, the spec has no
steps, no repository is resolved and no changeset spec is produced. -/
def quietService : Service :=
  { ParseCampaignSpec := fun _ =>
      .ok ({ Name := "campaign", Description := "", On := [], Steps := [],
             ImportChangesets := [], ChangesetTemplate := none }, "name: campaign"),
    ValidateSpec := fun _ => none,
    ResolveNamespace := fun name => .ok ("id-of-" ++ name),
    SetDockerImages := fun spec => .ok spec,
    ResolveRepositories := fun _ => ([], none),
    ExecuteCampaignSpec := fun _ _ _ => .ok [],
    CreateChangesetSpec := fun _ => .ok "changeset-spec",
    CreateCampaignSpec := fun _ _ _ => .ok ("campaign-spec", "/campaigns/apply/campaign-spec") }

/-- The flags of `src campaign apply -f campaign.yaml -n sourcegraph` with the
defaults of `newCampaignsApplyFlags` for the rest. -/
def sampleFlags : campaignsApplyFlags :=
  { allowUnsupported := false, apply := false, cacheDir := "/home/me/.cache/sourcegraph/campaigns",
    tempDir := "/tmp", clearCache := false, file := "campaign.yaml", keep := false,
    namespaceName := "sourcegraph", parallelism := 0, timeout := 3600000000000 }

/-! ## Image lists of the SBOM commands (`cmd/src/sbom_utils.go`) -/

/-- A regular expression, for the pattern `getImageList` compiles. -/
inductive Regex where
  | nothing
  | epsilon
  | range (lo hi : Char)
  | seq (r s : Regex)
  | alt (r s : Regex)
  | star (r : Regex)
deriving Repr

namespace Regex

/-- Whether the expression matches the empty text. -/
def nullable : Regex → Bool
  | nothing => false
  | epsilon => true
  | range _ _ => false
  | seq r s => r.nullable && s.nullable
  | alt r s => r.nullable || s.nullable
  | star _ => true

/-- The expression for what may follow the character `c`. -/
def deriv (c : Char) : Regex → Regex
  | nothing => nothing
  | epsilon => nothing
  | range lo hi => if lo ≤ c ∧ c ≤ hi then epsilon else nothing
  | seq r s => if r.nullable then alt (seq (r.deriv c) s) (s.deriv c) else seq (r.deriv c) s
  | alt r s => alt (r.deriv c) (s.deriv c)
  | star r => seq (r.deriv c) (star r)

/-- Whether the expression matches the whole of a text. -/
def matchesChars : Regex → List Char → Bool
  | r, [] => r.nullable
  | r, c :: cs => matchesChars (r.deriv c) cs

/-- The method `MatchString` of a pattern anchored by `^` and `$`: the whole
string has to match. -/
def MatchString (r : Regex) (s : String) : Bool :=
  r.matchesChars s.data

/-- The one character `c`. -/
def chr (c : Char) : Regex := range c c

/-- The expression `r?`. -/
def opt (r : Regex) : Regex := alt r epsilon

/-- The expression `r+`. -/
def plus (r : Regex) : Regex := seq r (star r)

end Regex

/-- The pattern of `getImageList`, between its anchors:
`v?[0-5]\.([0-7]\.[0-9]+|8\.0)`. -/
def versionRegex : Regex :=
  .seq (.opt (.chr 'v')) (.seq (.range '0' '5') (.seq (.chr '.')
    (.alt (.seq (.range '0' '7') (.seq (.chr '.') (.plus (.range '0' '9'))))
      (.seq (.chr '8') (.seq (.chr '.') (.chr '0'))))))

/-- The struct `cosignConfig`. -/
structure cosignConfig where
  publicKey : String
  outputDir : String
  version : String
  internalRelease : Bool
  insecureIgnoreTransparencyLog : Bool
  imageFilters : List String
  excludeImageFilters : List String
deriving DecidableEq, Repr

/-- The constant `imageListBaseURL`. -/
def imageListBaseURL : String := "https://storage.googleapis.com/sourcegraph-release-sboms"

/-- The constant `imageListFilename`. -/
def imageListFilename : String := "release-image-list.txt"

/-- The method `(*cosignConfig).getImageReleaseListURL`. -/
def cosignConfig.getImageReleaseListURL (c : cosignConfig) : String :=
  if c.internalRelease then
    imageListBaseURL ++ "/release-internal/" ++ c.version ++ "/" ++ imageListFilename
  else
    imageListBaseURL ++ "/release/" ++ c.version ++ "/" ++ imageListFilename

/-- The function `strings.HasPrefix`. -/
def hasPrefix (s start : String) : Bool :=
  start.data.isPrefixOf s.data

/-- The function `strings.TrimPrefix`. -/
def trimPrefix (s start : String) : String :=
  if hasPrefix s start then String.mk (s.data.drop start.data.length) else s

/-- The function `unicode.IsSpace`: the white space of Latin-1 and the other
characters of the Unicode property White_Space, by code point. -/
def isSpace (c : Char) : Bool :=
  let n := c.toNat
  n = 9 || n = 10 || n = 11 || n = 12 || n = 13 || n = 32 || n = 133 || n = 160 ||
    n = 5760 || (8192 ≤ n && n ≤ 8202) || n = 8232 || n = 8233 || n = 8239 ||
    n = 8287 || n = 12288

/-- The function `strings.TrimSpace`. -/
def trimSpace (s : String) : String :=
  String.mk ((s.data.dropWhile isSpace).reverse.dropWhile isSpace).reverse

/-- The call `strings.SplitN(image, ":", 2)`: the text before the first colon
and the text after it, or the text alone when it has no colon. -/
def splitColon (image : String) : List String :=
  match image.data.dropWhile (fun ch => ch ≠ ':') with
  | [] => [image]
  | _ :: after => [String.mk (image.data.takeWhile (fun ch => ch ≠ ':')), String.mk after]

/-- The element `parts[0]` of `splitColon`. -/
def imageNameOf (image : String) : String :=
  match splitColon image with
  | [] => ""
  | name :: _ => name

/-- The function `matchesImageFilter`. `filepathMatch` is `filepath.Match`,
with its two results, `matched` and the error (`none` for nil); the error is
dropped, as in `matched, _ := filepath.Match(...)`. -/
def matchesImageFilter (filepathMatch : String → String → Bool × Option String) :
    List String → String → Bool
  | [], _ => false
  | pattern :: rest, imageName =>
    if (filepathMatch pattern imageName).1 then true
    else if hasPrefix imageName "sourcegraph/" &&
        (filepathMatch pattern (trimPrefix imageName "sourcegraph/")).1 then true
    else matchesImageFilter filepathMatch rest imageName

/-- The response of `http.Get` as `getImageList` reads it: the status code,
the lines `scanner.Text()` yields while `scanner.Scan()` is true, and what
`scanner.Err()` returns after the loop. -/
structure Response where
  StatusCode : Nat
  Lines : List String
  ScanErr : Option String
deriving DecidableEq, Repr

/-- The loop `for scanner.Scan()` of `getImageList`: the images appended, in
the order of the lines. -/
def scanImages (filepathMatch : String → String → Bool × Option String) (c : cosignConfig) :
    List String → List String
  | [] => []
  | line :: rest =>
    let image := trimSpace line
    if image ≠ "" then
      let imageName := imageNameOf image
      if c.imageFilters.length > 0 && !matchesImageFilter filepathMatch c.imageFilters imageName
      then scanImages filepathMatch c rest
      else if c.excludeImageFilters.length > 0 &&
          matchesImageFilter filepathMatch c.excludeImageFilters imageName
      then scanImages filepathMatch c rest
      else imageName :: scanImages filepathMatch c rest
    else scanImages filepathMatch c rest

/-- The method `cosignConfig.getImageList`. `httpGet` is `http.Get`. -/
def cosignConfig.getImageList (filepathMatch : String → String → Bool × Option String)
    (httpGet : String → Except String Response) (c : cosignConfig) :
    Except String (List String) :=
  match httpGet c.getImageReleaseListURL with
  | .error err => .error ("failed to fetch image list: " ++ err)
  | .ok resp =>
    if resp.StatusCode ≠ 200 then
      if versionRegex.MatchString c.version then
        .error ("unsupported version " ++ c.version
          ++ ": SBOMs are only available for Sourcegraph releases after 5.8.0")
      else
        .error ("failed to fetch list of images - check that " ++ c.version
          ++ " is a valid Sourcegraph release: HTTP status " ++ toString resp.StatusCode)
    else
      let images := scanImages filepathMatch c resp.Lines
      match resp.ScanErr with
      | some err => .error ("error reading image list: " ++ err)
      | none => .ok images

/-- The question mark and the literal characters of a glob, on one character
of a name. -/
def globCharMatches (p ch : Char) : Bool :=
  (p = '?' && ch ≠ '/') || p = ch

/-- The star of a glob: `next` holds for the name after any run of characters
that has no slash. -/
def globStar (next : List Char → Bool) : List Char → Bool
  | [] => next []
  | ch :: rest => next (ch :: rest) || (ch ≠ '/' && globStar next rest)

/-- A glob of stars, question marks and literal characters against a name. -/
def globChars : List Char → List Char → Bool
  | [] => fun name => name.isEmpty
  | p :: ps => fun name =>
    if p = '*' then globStar (globChars ps) name
    else
      match name with
      | [] => false
      | ch :: rest => globCharMatches p ch && globChars ps rest

/-- A reading of `filepath.Match` for the concrete cases: patterns of stars,
question marks and literal characters. A pattern with an opening bracket is
answered the way Go answers an unclosed bracket, no match and the error
`ErrBadPattern`. -/
def sampleFilepathMatch (pattern name : String) : Bool × Option String :=
  if pattern.data.contains '[' then (false, some "syntax error in pattern")
  else (globChars pattern.data name.data, none)

/-- A release list of three lines, for the concrete cases. -/
def sampleImageLines : List String :=
  ["sourcegraph/frontend:5.9.0@sha256:abc", "  sourcegraph/gitserver:5.9.0  ", "",
   "sourcegraph/postgres-12-alpine:5.9.0"]

/-- A `cosignConfig` for the concrete cases: a public release with the given
version and filters. -/
def cosignFor (version : String) (imageFilters excludeImageFilters : List String) :
    cosignConfig :=
  { publicKey := "", outputDir := "", version := version, internalRelease := false,
    insecureIgnoreTransparencyLog := false, imageFilters := imageFilters,
    excludeImageFilters := excludeImageFilters }

/-- A server for the concrete cases: it answers every request with the given
status and lines, read without error. -/
def answerWith (status : Nat) (lines : List String) (_url : String) : Except String Response :=
  .ok { StatusCode := status, Lines := lines, ScanErr := none }

/-- The texts a regular expression stands for: what `MatchString` is checked
against. -/
inductive Regex.Matches : Regex → List Char → Prop where
  | epsilon : Regex.Matches .epsilon []
  | range (lo hi c : Char) : lo ≤ c → c ≤ hi → Regex.Matches (.range lo hi) [c]
  | seq (r s : Regex) (u w : List Char) :
      Regex.Matches r u → Regex.Matches s w → Regex.Matches (.seq r s) (u ++ w)
  | altLeft (r s : Regex) (u : List Char) : Regex.Matches r u → Regex.Matches (.alt r s) u
  | altRight (r s : Regex) (u : List Char) : Regex.Matches s u → Regex.Matches (.alt r s) u
  | starNil (r : Regex) : Regex.Matches (.star r) []
  | starCons (r : Regex) (u w : List Char) :
      Regex.Matches r u → Regex.Matches (.star r) w → Regex.Matches (.star r) (u ++ w)

/-- The number a decimal digit stands for. -/
def digitValue (c : Char) : Nat := c.toNat - 48

/-- The number a run of decimal digits stands for. -/
def digitsValue (digits : List Char) : Nat :=
  digits.foldl (fun n c => 10 * n + digitValue c) 0

/-- The order of versions `major.minor.patch`: the first is at most the
second. -/
def versionLE (x y : Nat × Nat × Nat) : Prop :=
  x.1 < y.1 ∨ (x.1 = y.1 ∧ (x.2.1 < y.2.1 ∨ (x.2.1 = y.2.1 ∧ x.2.2 ≤ y.2.2)))

/-! ## Lemmas on maps -/

theorem GoMap.lookup_store {V : Type} (m : GoMap V) (k : String) (v : V) (k' : String) :
    (m.store k v).lookup k' = if k = k' then some v else m.lookup k' := by
  induction m with
  | nil => simp [GoMap.store, GoMap.lookup]
  | cons e rest ih =>
    obtain ⟨k0, v0⟩ := e
    by_cases h : k0 = k
    · subst h
      by_cases h2 : k0 = k' <;> simp [GoMap.store, GoMap.lookup, h2]
    · by_cases h' : k0 = k'
      · subst h'
        have : ¬ k = k0 := fun e => h e.symm
        simp [GoMap.store, GoMap.lookup, h, this]
      · simp [GoMap.store, GoMap.lookup, h, h', ih]

theorem GoMap.lookup_mapValues {V W : Type} (f : V → W) (m : GoMap V) (k : String) :
    (m.mapValues f).lookup k = (m.lookup k).map f := by
  induction m with
  | nil => simp [GoMap.mapValues, GoMap.lookup]
  | cons e rest ih =>
    obtain ⟨k0, v0⟩ := e
    by_cases h : k0 = k <;> simp [GoMap.mapValues, GoMap.lookup, h, ih]

theorem GoMap.keys_mapValues {V W : Type} (f : V → W) (m : GoMap V) :
    (m.mapValues f).keys = m.keys := by
  induction m with
  | nil => rfl
  | cons e rest ih =>
    obtain ⟨k0, v0⟩ := e
    simp [GoMap.mapValues, GoMap.keys, ih]

theorem GoMap.mem_keys_iff {V : Type} (m : GoMap V) (k : String) :
    k ∈ m.keys ↔ m.lookup k ≠ none := by
  induction m with
  | nil => simp [GoMap.keys, GoMap.lookup]
  | cons e rest ih =>
    obtain ⟨k0, v0⟩ := e
    by_cases h : k0 = k
    · simp [GoMap.keys, GoMap.lookup, h]
    · have h' : ¬ k = k0 := fun e => h e.symm
      simp [GoMap.keys, GoMap.lookup, h, h', ih]

theorem GoMap.mem_keys_store {V : Type} (m : GoMap V) (k : String) (v : V) (k' : String) :
    k' ∈ (m.store k v).keys ↔ k' = k ∨ k' ∈ m.keys := by
  rw [GoMap.mem_keys_iff, GoMap.mem_keys_iff, GoMap.lookup_store]
  by_cases h : k = k'
  · simp [h]
  · have h' : ¬ k' = k := fun e => h e.symm
    simp [h, h']

theorem GoMap.nodup_keys_store {V : Type} (m : GoMap V) (k : String) (v : V)
    (h : m.keys.Nodup) : (m.store k v).keys.Nodup := by
  induction m with
  | nil => simp [GoMap.store, GoMap.keys]
  | cons e rest ih =>
    obtain ⟨k0, v0⟩ := e
    simp only [GoMap.keys, List.nodup_cons] at h
    by_cases hk : k0 = k
    · subst hk
      simp [GoMap.store, GoMap.keys, h.1, h.2]
    · simp only [GoMap.store, hk, if_false, GoMap.keys, List.nodup_cons]
      refine ⟨?_, ih h.2⟩
      rw [GoMap.mem_keys_store]
      rintro (h1 | h1)
      · exact hk h1
      · exact h.1 h1

/-! ## Lemmas on the choice of the branch -/

theorem branchOf_append (branch : String) (pre post : List Group) (path : String) :
    branchOf branch (pre ++ post) path = branchOf (branchOf branch pre path) post path := by
  induction pre generalizing branch with
  | nil => rfl
  | cons g rest ih =>
    by_cases h : directoryMatches g.Directory path = true
    · simp [branchOf, h, ih]
    · simp [branchOf, h, ih]

theorem branchOf_no_match (branch : String) (groups : List Group) (path : String)
    (h : ∀ g ∈ groups, directoryMatches g.Directory path = false) :
    branchOf branch groups path = branch := by
  induction groups generalizing branch with
  | nil => rfl
  | cons g rest ih =>
    have hg : directoryMatches g.Directory path = false := h g (List.mem_cons_self _ _)
    simp only [branchOf, hg]
    exact ih branch (fun g' hg' => h g' (List.mem_cons_of_mem _ hg'))

theorem branchOf_captures (branch : String) (groups : List Group) (g : Group) (path : String)
    (h : Captures groups g path) : branchOf branch groups path = g.Branch := by
  obtain ⟨pre, post, hsplit, hg, hpost⟩ := h
  subst hsplit
  rw [branchOf_append]
  simp only [branchOf, hg, if_true]
  exact branchOf_no_match _ _ _ hpost

/-- Either no group matches the path, or one group captures it. -/
theorem captures_or_no_match (groups : List Group) (path : String) :
    (∀ g ∈ groups, directoryMatches g.Directory path = false) ∨
      ∃ g, g ∈ groups ∧ Captures groups g path := by
  induction groups with
  | nil => left; simp
  | cons g rest ih =>
    rcases ih with hnone | ⟨g', hmem, pre, post, hsplit, hg', hpost⟩
    · by_cases hg : directoryMatches g.Directory path = true
      · right
        exact ⟨g, List.mem_cons_self _ _, [], rest, rfl, hg, hnone⟩
      · left
        intro x hx
        rcases List.mem_cons.mp hx with rfl | hx
        · simpa using hg
        · exact hnone x hx
    · right
      refine ⟨g', List.mem_cons_of_mem _ hmem, g :: pre, post, ?_, hg', hpost⟩
      simp [hsplit]

/-! ## Lemmas on the accumulators -/

theorem lookup_emit (byBranch : GoMap (List FileDiff)) (branch : String) (f : FileDiff)
    (k : String) :
    (emit byBranch branch f).lookup k =
      if branch = k then some ((byBranch.lookup k).getD [] ++ [f]) else byBranch.lookup k := by
  unfold emit
  rw [GoMap.lookup_store]
  by_cases h : branch = k
  · subst h; simp
  · simp [h]

/-- The entry of a branch after a run of file diffs: what the branch held,
followed by the file diffs of the run chosen for it, in the order of the run;
no entry when it held none and no file diff of the run is chosen for it. -/
theorem lookup_emitAll (defaultBranch : String) (groups : List Group)
    (byBranch : GoMap (List FileDiff)) (fileDiffs : List FileDiff) (k : String) :
    (emitAll defaultBranch groups byBranch fileDiffs).lookup k =
      if byBranch.lookup k = none ∧
          fileDiffs.filter (fun f => decide (branchOf defaultBranch groups f.path = k)) = []
      then none
      else some ((byBranch.lookup k).getD [] ++
        fileDiffs.filter (fun f => decide (branchOf defaultBranch groups f.path = k))) := by
  induction fileDiffs generalizing byBranch with
  | nil =>
    cases h : byBranch.lookup k <;> simp [emitAll, h]
  | cons f rest ih =>
    simp only [emitAll]
    rw [ih, lookup_emit]
    by_cases hb : branchOf defaultBranch groups f.path = k
    · simp [hb, List.filter_cons]
    · simp [hb, List.filter_cons]

theorem lookup_groupParsed (defaultBranch : String) (groups : List Group)
    (fileDiffs : List FileDiff) (k : String) :
    (groupParsed defaultBranch groups fileDiffs).lookup k =
      if k ≠ defaultBranch ∧
          fileDiffs.filter (fun f => decide (branchOf defaultBranch groups f.path = k)) = []
      then none
      else some (fileDiffs.filter (fun f => decide (branchOf defaultBranch groups f.path = k))) := by
  unfold groupParsed
  rw [lookup_emitAll, GoMap.lookup_store]
  by_cases h : defaultBranch = k
  · subst h; simp
  · have h' : ¬ k = defaultBranch := fun e => h e.symm
    simp [h, h', GoMap.empty, GoMap.lookup]

theorem nodup_keys_emitAll (defaultBranch : String) (groups : List Group)
    (byBranch : GoMap (List FileDiff)) (fileDiffs : List FileDiff)
    (h : byBranch.keys.Nodup) : (emitAll defaultBranch groups byBranch fileDiffs).keys.Nodup := by
  induction fileDiffs generalizing byBranch with
  | nil => simpa [emitAll] using h
  | cons f rest ih =>
    simp only [emitAll]
    exact ih _ (GoMap.nodup_keys_store _ _ _ h)

theorem nodup_keys_groupParsed (defaultBranch : String) (groups : List Group)
    (fileDiffs : List FileDiff) : (groupParsed defaultBranch groups fileDiffs).keys.Nodup := by
  unfold groupParsed
  apply nodup_keys_emitAll
  simp [GoMap.empty, GoMap.store, GoMap.keys]

theorem emittedUnder_iff (defaultBranch : String) (groups : List Group)
    (fileDiffs : List FileDiff) (k : String) (f : FileDiff) :
    EmittedUnder (groupParsed defaultBranch groups fileDiffs) k f ↔
      f ∈ fileDiffs ∧ branchOf defaultBranch groups f.path = k := by
  unfold EmittedUnder
  rw [lookup_groupParsed]
  constructor
  · rintro ⟨fs, hfs, hf⟩
    split at hfs
    · exact absurd hfs (by simp)
    · simp only [Option.some.injEq] at hfs
      subst hfs
      simpa using hf
  · rintro ⟨hf, hk⟩
    have hmem : f ∈ fileDiffs.filter (fun f => decide (branchOf defaultBranch groups f.path = k)) := by
      simp [hf, hk]
    have hne : fileDiffs.filter (fun f => decide (branchOf defaultBranch groups f.path = k)) ≠ [] :=
      List.ne_nil_of_mem hmem
    refine ⟨_, ?_, hmem⟩
    simp [hne]

theorem groupFileDiffs_ok (parse : String → Except String (List FileDiff))
    (completeDiff defaultBranch : String) (groups : List Group) (fileDiffs : List FileDiff)
    (h : parse completeDiff = .ok fileDiffs) :
    groupFileDiffs parse completeDiff defaultBranch groups =
      .ok ((groupParsed defaultBranch groups fileDiffs).mapValues printMultiFileDiff) := by
  simp [groupFileDiffs, h]

theorem parse_allDiffs :
    parseMultiFileDiff allDiffs = .ok [fileDiff1, fileDiff2, fileDiff3] := by
  rfl

/-! ## Diff grouping: last match wins -/

/-- C1: groupFileDiffs files every file diff of the input under the branch of
the last group, in list order, whose directory matches the path of the file
(is a prefix of it), and under the default branch when no group matches;
under no other branch.
With the groups `1 -> only-in-1, 1/2 -> only-in-2, 1/2/3 -> only-in-3` of the
test the three files land in `only-in-1`, `only-in-2` and `only-in-3`; with
the same groups in reverse order all three land in `only-in-1`. -/
theorem groupFileDiffs_last_match_wins :
    (∀ (parse : String → Except String (List FileDiff)) (completeDiff defaultBranch : String)
        (groups : List Group) (fileDiffs : List FileDiff),
        parse completeDiff = .ok fileDiffs →
        groupFileDiffs parse completeDiff defaultBranch groups =
            .ok ((groupParsed defaultBranch groups fileDiffs).mapValues printMultiFileDiff) ∧
        ∀ f ∈ fileDiffs,
          (∀ g, Captures groups g f.path →
            ∀ k, EmittedUnder (groupParsed defaultBranch groups fileDiffs) k f ↔ k = g.Branch) ∧
          ((∀ g ∈ groups, directoryMatches g.Directory f.path = false) →
            ∀ k, EmittedUnder (groupParsed defaultBranch groups fileDiffs) k f ↔
              k = defaultBranch)) ∧
    (∃ m, groupFileDiffs parseMultiFileDiff allDiffs "my-default-branch" groupsOnlyIn123 = .ok m ∧
      m.keys = ["my-default-branch", "only-in-1", "only-in-2", "only-in-3"] ∧
      m.lookup "my-default-branch" = some "" ∧ m.lookup "only-in-1" = some diff1 ∧
      m.lookup "only-in-2" = some diff2 ∧ m.lookup "only-in-3" = some diff3) ∧
    (∃ m, groupFileDiffs parseMultiFileDiff allDiffs "my-default-branch" groupsOnlyIn321 = .ok m ∧
      m.keys = ["my-default-branch", "only-in-1"] ∧
      m.lookup "my-default-branch" = some "" ∧
      m.lookup "only-in-1" = some (diff1 ++ diff2 ++ diff3)) := by
  refine ⟨?_, ?_, ?_⟩
  · intro parse completeDiff defaultBranch groups fileDiffs h
    refine ⟨groupFileDiffs_ok _ _ _ _ _ h, ?_⟩
    intro f hf
    constructor
    · intro g hg k
      rw [emittedUnder_iff, branchOf_captures _ _ _ _ hg]
      constructor
      · rintro ⟨_, hk⟩; exact hk.symm
      · intro hk; exact ⟨hf, hk.symm⟩
    · intro hno k
      rw [emittedUnder_iff, branchOf_no_match _ _ _ hno]
      constructor
      · rintro ⟨_, hk⟩; exact hk.symm
      · intro hk; exact ⟨hf, hk.symm⟩
  · refine ⟨_, groupFileDiffs_ok _ _ _ _ _ parse_allDiffs, ?_, ?_, ?_, ?_, ?_⟩ <;> decide
  · refine ⟨_, groupFileDiffs_ok _ _ _ _ _ parse_allDiffs, ?_, ?_, ?_⟩ <;> decide

/-- The file `1/2/2.txt` of the test, under the groups of its fourth case, is
captured by the group `1/2`: it is filed under `only-in-2` and not under
`only-in-1`, though the directory `1` matches it too. -/
theorem groupFileDiffs_last_match_wins_witness :
    Captures groupsOnlyIn123 { Directory := "1/2", Branch := "only-in-2" } fileDiff2.path ∧
    EmittedUnder (groupParsed "my-default-branch" groupsOnlyIn123
      [fileDiff1, fileDiff2, fileDiff3]) "only-in-2" fileDiff2 ∧
    ¬ EmittedUnder (groupParsed "my-default-branch" groupsOnlyIn123
      [fileDiff1, fileDiff2, fileDiff3]) "only-in-1" fileDiff2 := by
  have hc : Captures groupsOnlyIn123 { Directory := "1/2", Branch := "only-in-2" }
      fileDiff2.path :=
    ⟨[{ Directory := "1", Branch := "only-in-1" }],
      [{ Directory := "1/2/3", Branch := "only-in-3" }], rfl, by decide, by decide⟩
  have h := ((groupFileDiffs_last_match_wins.1 parseMultiFileDiff allDiffs "my-default-branch"
    groupsOnlyIn123 [fileDiff1, fileDiff2, fileDiff3] parse_allDiffs).2 fileDiff2
    (by decide)).1 _ hc
  refine ⟨hc, (h "only-in-2").mpr rfl, ?_⟩
  intro hn
  exact absurd ((h "only-in-1").mp hn) (by decide)

/-! ## Diff grouping: the branches partition the input -/

theorem getD_lookup_groupParsed (defaultBranch : String) (groups : List Group)
    (fileDiffs : List FileDiff) (k : String) :
    ((groupParsed defaultBranch groups fileDiffs).lookup k).getD [] =
      fileDiffs.filter (fun f => decide (branchOf defaultBranch groups f.path = k)) := by
  rw [lookup_groupParsed]
  split
  · rename_i h; simp [h.2]
  · simp

theorem sum_map_ite_eq_of_nodup (keys : List String) (a : String) (c : Nat)
    (h : keys.Nodup) :
    (keys.map (fun k => if a = k then c else 0)).sum = if a ∈ keys then c else 0 := by
  induction keys with
  | nil => simp
  | cons k rest ih =>
    rw [List.nodup_cons] at h
    rw [List.map_cons, List.sum_cons, ih h.2]
    by_cases hk : a = k
    · subst hk
      simp [h.1]
    · simp [hk]

/-- C2: for a diff that parses, the lists of file diffs behind the per-branch
texts partition the parsed input. Every input file diff is under exactly one
branch; whatever is under a branch is a file diff of the input, and the list
of a branch is a sublist of the input; counted over the keys of the result,
every file diff occurs as often as in the input. -/
theorem groupFileDiffs_partition (parse : String → Except String (List FileDiff))
    (completeDiff defaultBranch : String) (groups : List Group) (fileDiffs : List FileDiff)
    (h : parse completeDiff = .ok fileDiffs) :
    groupFileDiffs parse completeDiff defaultBranch groups =
        .ok ((groupParsed defaultBranch groups fileDiffs).mapValues printMultiFileDiff) ∧
    (∀ f ∈ fileDiffs, ∃! k, EmittedUnder (groupParsed defaultBranch groups fileDiffs) k f) ∧
    (∀ k f, EmittedUnder (groupParsed defaultBranch groups fileDiffs) k f → f ∈ fileDiffs) ∧
    (∀ k fs, (groupParsed defaultBranch groups fileDiffs).lookup k = some fs →
      fs.Sublist fileDiffs) ∧
    (∀ f, ((groupParsed defaultBranch groups fileDiffs).keys.map (fun k =>
        (((groupParsed defaultBranch groups fileDiffs).lookup k).getD []).count f)).sum =
      fileDiffs.count f) := by
  refine ⟨groupFileDiffs_ok _ _ _ _ _ h, ?_, ?_, ?_, ?_⟩
  · intro f hf
    refine ⟨branchOf defaultBranch groups f.path, ?_, ?_⟩
    · exact (emittedUnder_iff _ _ _ _ _).mpr ⟨hf, rfl⟩
    · intro k hk
      exact ((emittedUnder_iff _ _ _ _ _).mp hk).2.symm
  · intro k f hk
    exact ((emittedUnder_iff _ _ _ _ _).mp hk).1
  · intro k fs hk
    have := getD_lookup_groupParsed defaultBranch groups fileDiffs k
    rw [hk] at this
    simp only [Option.getD_some] at this
    rw [this]
    exact List.filter_sublist _
  · intro f
    have hcount : ∀ k, (((groupParsed defaultBranch groups fileDiffs).lookup k).getD []).count f =
        if branchOf defaultBranch groups f.path = k then fileDiffs.count f else 0 := by
      intro k
      rw [getD_lookup_groupParsed]
      by_cases hk : branchOf defaultBranch groups f.path = k
      · rw [List.count_filter (by simpa using hk)]
        simp [hk]
      · have hnot : f ∉ fileDiffs.filter
            (fun f => decide (branchOf defaultBranch groups f.path = k)) := by
          simp [hk]
        simp [hk, List.count_eq_zero_of_not_mem hnot]
    simp only [hcount]
    rw [sum_map_ite_eq_of_nodup _ _ _ (nodup_keys_groupParsed _ _ _)]
    by_cases hf : f ∈ fileDiffs
    · have hmem : branchOf defaultBranch groups f.path ∈
          (groupParsed defaultBranch groups fileDiffs).keys := by
        rw [GoMap.mem_keys_iff]
        obtain ⟨fs, hfs, _⟩ := (emittedUnder_iff defaultBranch groups fileDiffs _ f).mpr ⟨hf, rfl⟩
        simp [hfs]
      simp [hmem]
    · simp [List.count_eq_zero_of_not_mem hf]

/-- The second case of `TestGroupFileDiffs` (`1/2 -> everything-in-2-and-3`):
the file `1/1.txt` is under the default branch and under no other, and the
two other files are under the branch of the group. -/
theorem groupFileDiffs_partition_witness :
    (∃! k, EmittedUnder (groupParsed "my-default-branch"
      [{ Directory := "1/2", Branch := "everything-in-2-and-3" }]
      [fileDiff1, fileDiff2, fileDiff3]) k fileDiff1) ∧
    (groupParsed "my-default-branch" [{ Directory := "1/2", Branch := "everything-in-2-and-3" }]
      [fileDiff1, fileDiff2, fileDiff3]).lookup "my-default-branch" = some [fileDiff1] ∧
    (groupParsed "my-default-branch" [{ Directory := "1/2", Branch := "everything-in-2-and-3" }]
      [fileDiff1, fileDiff2, fileDiff3]).lookup "everything-in-2-and-3" =
        some [fileDiff2, fileDiff3] :=
  ⟨(groupFileDiffs_partition parseMultiFileDiff allDiffs "my-default-branch"
      [{ Directory := "1/2", Branch := "everything-in-2-and-3" }]
      [fileDiff1, fileDiff2, fileDiff3] parse_allDiffs).2.1 fileDiff1 (by decide),
    by decide, by decide⟩

/-! ## Diff grouping: the keys of the result -/

/-- The branch chosen for a path is the start branch, or the branch of a
group of the list that captures the path. -/
theorem branchOf_eq_or_captures (branch : String) (groups : List Group) (path : String) :
    branchOf branch groups path = branch ∨
      ∃ g ∈ groups, Captures groups g path ∧ branchOf branch groups path = g.Branch := by
  rcases captures_or_no_match groups path with hno | ⟨g, hmem, hg⟩
  · left; exact branchOf_no_match _ _ _ hno
  · right; exact ⟨g, hmem, hg, branchOf_captures _ _ _ _ hg⟩

/-- C3: the keys of the map groupFileDiffs returns are the default branch and
the branches of the groups that captured a file, each key once. The default
branch is always a key, and maps to the empty text when every file was
captured by a group of another branch; a branch other than the default one
whose groups captured no file is no key. -/
theorem groupFileDiffs_keys (parse : String → Except String (List FileDiff))
    (completeDiff defaultBranch : String) (groups : List Group) (fileDiffs : List FileDiff)
    (h : parse completeDiff = .ok fileDiffs) :
    ∃ m, groupFileDiffs parse completeDiff defaultBranch groups = .ok m ∧
      m.keys.Nodup ∧
      (∀ k, k ∈ m.keys ↔ k = defaultBranch ∨
        ∃ g ∈ groups, g.Branch = k ∧ ∃ f ∈ fileDiffs, Captures groups g f.path) ∧
      defaultBranch ∈ m.keys ∧
      ((∀ f ∈ fileDiffs, ∃ g ∈ groups, Captures groups g f.path ∧ g.Branch ≠ defaultBranch) →
        m.lookup defaultBranch = some "") ∧
      (∀ g ∈ groups, g.Branch ≠ defaultBranch →
        (¬ ∃ g' ∈ groups, g'.Branch = g.Branch ∧ ∃ f ∈ fileDiffs, Captures groups g' f.path) →
        m.lookup g.Branch = none) := by
  have hkeys : ∀ k, k ∈ ((groupParsed defaultBranch groups fileDiffs).mapValues
      printMultiFileDiff).keys ↔ k = defaultBranch ∨
        ∃ g ∈ groups, g.Branch = k ∧ ∃ f ∈ fileDiffs, Captures groups g f.path := by
    intro k
    rw [GoMap.keys_mapValues, GoMap.mem_keys_iff, lookup_groupParsed]
    constructor
    · intro hk
      by_cases hd : k = defaultBranch
      · exact Or.inl hd
      · right
        have hne : fileDiffs.filter
            (fun f => decide (branchOf defaultBranch groups f.path = k)) ≠ [] := by
          intro he
          exact hk (by simp [hd, he])
        obtain ⟨f, hf⟩ := List.exists_mem_of_ne_nil _ hne
        rw [List.mem_filter] at hf
        have hb : branchOf defaultBranch groups f.path = k := by simpa using hf.2
        rcases branchOf_eq_or_captures defaultBranch groups f.path with h0 | ⟨g, hmem, hg, hgb⟩
        · exact absurd (h0.symm.trans hb).symm hd
        · exact ⟨g, hmem, hgb.symm.trans hb, f, hf.1, hg⟩
    · rintro (hd | ⟨g, _, hgk, f, hf, hg⟩)
      · simp [hd]
      · have hb : branchOf defaultBranch groups f.path = k :=
          (branchOf_captures defaultBranch _ _ _ hg).trans hgk
        have hmem : f ∈ fileDiffs.filter
            (fun f => decide (branchOf defaultBranch groups f.path = k)) := by
          simp [hf, hb]
        have hne := List.ne_nil_of_mem hmem
        simp [hne]
  refine ⟨_, groupFileDiffs_ok _ _ _ _ _ h, ?_, hkeys, (hkeys _).mpr (Or.inl rfl), ?_, ?_⟩
  · rw [GoMap.keys_mapValues]
    exact nodup_keys_groupParsed _ _ _
  · intro hall
    rw [GoMap.lookup_mapValues, lookup_groupParsed]
    have hnil : fileDiffs.filter
        (fun f => decide (branchOf defaultBranch groups f.path = defaultBranch)) = [] := by
      rw [List.filter_eq_nil_iff]
      intro f hf
      obtain ⟨g, _, hg, hne⟩ := hall f hf
      rw [branchOf_captures defaultBranch _ _ _ hg]
      simpa using hne
    simp [hnil, printMultiFileDiff]
  · intro g hg hne hnone
    have hnot : g.Branch ∉ ((groupParsed defaultBranch groups fileDiffs).mapValues
        printMultiFileDiff).keys := by
      rw [hkeys]
      rintro (hd | hex)
      · exact hne hd
      · exact hnone hex
    rw [GoMap.mem_keys_iff] at hnot
    simpa using hnot

/-- The third case of `TestGroupFileDiffs` (`1 -> everything-in-1-and-2-and-3`):
the group captures the three files, the default branch is a key with the
empty text; and in the first case (`1/2/3 -> everything-in-3`) the group
captures `1/2/3/3.txt`, so its branch is a key. -/
theorem groupFileDiffs_keys_witness :
    (∃ m, groupFileDiffs parseMultiFileDiff allDiffs "my-default-branch"
        [{ Directory := "1", Branch := "everything-in-1-and-2-and-3" }] = .ok m ∧
      m.lookup "my-default-branch" = some "" ∧
      m.keys = ["my-default-branch", "everything-in-1-and-2-and-3"]) ∧
    (∃ m, groupFileDiffs parseMultiFileDiff allDiffs "my-default-branch"
        [{ Directory := "1/2/3", Branch := "everything-in-3" }] = .ok m ∧
      "everything-in-3" ∈ m.keys) := by
  constructor
  · obtain ⟨m, hm, _, _, _, hempty, _⟩ := groupFileDiffs_keys parseMultiFileDiff allDiffs
      "my-default-branch" [{ Directory := "1", Branch := "everything-in-1-and-2-and-3" }]
      [fileDiff1, fileDiff2, fileDiff3] parse_allDiffs
    refine ⟨m, hm, hempty ?_, ?_⟩
    · intro f hf
      refine ⟨{ Directory := "1", Branch := "everything-in-1-and-2-and-3" }, by simp,
        ⟨[], [], rfl, ?_, by simp⟩, by decide⟩
      simp only [List.mem_cons, List.mem_singleton, List.not_mem_nil, or_false] at hf
      rcases hf with rfl | rfl | rfl <;> decide
    · rw [groupFileDiffs_ok _ _ _ _ _ parse_allDiffs] at hm
      cases hm
      decide
  · obtain ⟨m, hm, _, hkeys, _⟩ := groupFileDiffs_keys parseMultiFileDiff allDiffs
      "my-default-branch" [{ Directory := "1/2/3", Branch := "everything-in-3" }]
      [fileDiff1, fileDiff2, fileDiff3] parse_allDiffs
    refine ⟨m, hm, (hkeys _).mpr (Or.inr ⟨_, List.mem_singleton_self _, rfl, fileDiff3, by decide,
      ⟨[], [], rfl, by decide, by simp⟩⟩)⟩

/-! ## Group validation -/

/-- No branch is found shared exactly when the branches of the list are
pairwise distinct and none of them was seen before. -/
theorem sharedBranch_eq_none_iff (seen : List String) (groups : List Group) :
    sharedBranch seen groups = none ↔
      groups.Pairwise (fun g h => g.Branch ≠ h.Branch) ∧ ∀ g ∈ groups, g.Branch ∉ seen := by
  induction groups generalizing seen with
  | nil => simp [sharedBranch]
  | cons g rest ih =>
    by_cases hs : g.Branch ∈ seen
    · simp only [sharedBranch, hs, if_true]
      constructor
      · intro h; exact absurd h (by simp)
      · rintro ⟨_, h⟩
        exact absurd hs (h g (List.mem_cons_self _ _))
    · simp only [sharedBranch, hs, if_false, ih, List.pairwise_cons, List.mem_cons]
      constructor
      · rintro ⟨hp, hrest⟩
        refine ⟨⟨fun h hh e => (hrest h hh) (Or.inl e.symm), hp⟩, ?_⟩
        rintro x (rfl | hx)
        · exact hs
        · exact fun hx' => hrest x hx (Or.inr hx')
      · rintro ⟨⟨hg, hp⟩, hall⟩
        refine ⟨hp, ?_⟩
        rintro x hx (e | hx')
        · exact hg x hx e.symm
        · exact hall x (Or.inr hx) hx'

theorem validateGroups_eq_ok_iff (repoName defaultBranch : String) (groups : List Group) :
    validateGroups repoName defaultBranch groups = .ok () ↔
      groups.Pairwise (fun g h => g.Branch ≠ h.Branch) ∧ ∀ g ∈ groups, g.Branch ≠ defaultBranch := by
  unfold validateGroups
  cases hs : sharedBranch [] groups with
  | some b =>
    have hn : ¬ groups.Pairwise (fun g h => g.Branch ≠ h.Branch) := by
      intro hp
      have := (sharedBranch_eq_none_iff [] groups).mpr ⟨hp, by simp⟩
      rw [hs] at this
      exact absurd this (by simp)
    simp [hn]
  | none =>
    have hp := ((sharedBranch_eq_none_iff [] groups).mp hs).1
    by_cases ha : groups.any (fun g => decide (g.Branch = defaultBranch)) = true
    · simp only [ha, if_true]
      constructor
      · intro h; exact absurd h (by simp)
      · rintro ⟨_, hall⟩
        rw [List.any_eq_true] at ha
        obtain ⟨g, hg, hgd⟩ := ha
        exact absurd (by simpa using hgd) (hall g hg)
    · simp only [ha]
      refine ⟨fun _ => ⟨hp, ?_⟩, fun _ => by simp⟩
      intro g hg hgd
      apply ha
      rw [List.any_eq_true]
      exact ⟨g, hg, by simpa using hgd⟩

/-- C6: validateGroups returns an error exactly when two groups of the list
have the same branch or a group has the default branch; for groups of
pairwise distinct branches, none of them the default branch, it returns nil,
and so it does for the empty list. -/
theorem validateGroups_error_iff (repoName defaultBranch : String) (groups : List Group) :
    ((∃ e, validateGroups repoName defaultBranch groups = .error e) ↔
      (¬ groups.Pairwise (fun g h => g.Branch ≠ h.Branch) ∨
        ∃ g ∈ groups, g.Branch = defaultBranch)) ∧
    (groups.Pairwise (fun g h => g.Branch ≠ h.Branch) →
      (∀ g ∈ groups, g.Branch ≠ defaultBranch) →
      validateGroups repoName defaultBranch groups = .ok ()) ∧
    validateGroups repoName defaultBranch [] = .ok () := by
  have hiff := validateGroups_eq_ok_iff repoName defaultBranch groups
  refine ⟨?_, fun hp hd => hiff.mpr ⟨hp, hd⟩, rfl⟩
  constructor
  · rintro ⟨e, he⟩
    by_contra hcon
    push_neg at hcon
    have := hiff.mpr ⟨hcon.1, hcon.2⟩
    rw [he] at this
    exact absurd this (by simp)
  · intro hbad
    cases hv : validateGroups repoName defaultBranch groups with
    | error e => exact ⟨e, rfl⟩
    | ok u =>
      have hok := hiff.mp hv
      rcases hbad with hnp | ⟨g, hg, hgd⟩
      · exact absurd hok.1 hnp
      · exact absurd hgd (hok.2 g hg)

/-- The three cases of `TestValidateGroups`: distinct branches pass, a branch
shared by two groups fails, a group on the default branch fails; the two
errors carry the texts the test expects. -/
theorem validateGroups_error_iff_witness :
    validateGroups "github.com/sourcegraph/src-cli" "my-campaign"
      [{ Directory := "a", Branch := "my-campaign-a" },
       { Directory := "b", Branch := "my-campaign-b" }] = .ok () ∧
    (∃ e, validateGroups "github.com/sourcegraph/src-cli" "my-campaign"
      [{ Directory := "a", Branch := "my-campaign-SAME" },
       { Directory := "b", Branch := "my-campaign-SAME" }] = .error e) ∧
    (∃ e, validateGroups "github.com/sourcegraph/src-cli" "my-campaign"
      [{ Directory := "a", Branch := "my-campaign-SAME" },
       { Directory := "b", Branch := "my-campaign" }] = .error e) ∧
    validateGroups "github.com/sourcegraph/src-cli" "my-campaign"
      [{ Directory := "a", Branch := "my-campaign-SAME" },
       { Directory := "b", Branch := "my-campaign-SAME" }] =
      .error ("transformChanges would lead to multiple changesets in repository "
        ++ "github.com/sourcegraph/src-cli to have the same branch "
        ++ quoted "my-campaign-SAME") ∧
    validateGroups "github.com/sourcegraph/src-cli" "my-campaign"
      [{ Directory := "a", Branch := "my-campaign-SAME" },
       { Directory := "b", Branch := "my-campaign" }] =
      .error ("transformChanges group branch for repository "
        ++ "github.com/sourcegraph/src-cli is the same as branch "
        ++ quoted "my-campaign" ++ " in changesetTemplate") :=
  ⟨(validateGroups_error_iff _ _ _).2.1 (by decide) (by decide),
    (validateGroups_error_iff _ _ _).1.mpr (Or.inl (by decide)),
    (validateGroups_error_iff _ _ _).1.mpr (Or.inr (by decide)),
    by rfl, by rfl⟩

/-! ## `IsRepoPublished` -/

theorem matchesAny_eq_true_iff (globs : List Glob) (name : String) :
    matchesAny globs name = true ↔ ∃ g ∈ globs, g.Match name = true := by
  induction globs with
  | nil => simp [matchesAny]
  | cons g rest ih =>
    by_cases h : g.Match name = true
    · simp [matchesAny, h]
    · simp [matchesAny, h, ih]

/-- C8: without a default and with a non-empty compiled only-list, a
repository is published exactly when an only-glob matches its name; the
except-list plays no part, so a repository matched by an only-glob and an
except-glob is published and one that no only-glob matches is not. -/
theorem isRepoPublished_only (p : OverridableBool) (repo : Repository)
    (hd : p.Default = none) (ho : p.only ≠ []) :
    (p.IsRepoPublished repo = true ↔ ∃ g ∈ p.only, g.Match repo.Name = true) ∧
    (∀ globs : List Glob,
      OverridableBool.IsRepoPublished { p with except := globs } repo =
        p.IsRepoPublished repo) ∧
    ((∃ g ∈ p.only, g.Match repo.Name = true) → (∃ g ∈ p.except, g.Match repo.Name = true) →
      p.IsRepoPublished repo = true) ∧
    ((∀ g ∈ p.only, g.Match repo.Name = false) → p.IsRepoPublished repo = false) := by
  have hlen : p.only.length > 0 := List.length_pos.mpr ho
  have hval : p.IsRepoPublished repo = matchesAny p.only repo.Name := by
    simp only [OverridableBool.IsRepoPublished, hd, hlen, if_true]
    cases matchesAny p.only repo.Name <;> rfl
  refine ⟨?_, ?_, ?_, ?_⟩
  · rw [hval, matchesAny_eq_true_iff]
  · intro globs
    rw [hval]
    simp only [OverridableBool.IsRepoPublished, hd, hlen, if_true]
    cases matchesAny p.only repo.Name <;> rfl
  · intro h _
    rw [hval, matchesAny_eq_true_iff]
    exact h
  · intro h
    rw [hval]
    cases hm : matchesAny p.only repo.Name with
    | false => rfl
    | true =>
      obtain ⟨g, hg, hgm⟩ := (matchesAny_eq_true_iff _ _).mp hm
      rw [h g hg] at hgm
      exact absurd hgm (by simp)

/-- The repository `github.com/sourcegraph/src-cli` with the only-list
`github.com/sourcegraph/*` and itself on the except-list is published; the
repository `gitlab.com/other/repo` is not. -/
theorem isRepoPublished_only_witness :
    OverridableBool.IsRepoPublished
      { Only := ["github.com/sourcegraph/*"], Except := ["github.com/sourcegraph/src-cli"],
        only := [prefixGlob "github.com/sourcegraph/"],
        except := [literalGlob "github.com/sourcegraph/src-cli"], Default := none }
      { Name := "github.com/sourcegraph/src-cli" } = true ∧
    OverridableBool.IsRepoPublished
      { Only := ["github.com/sourcegraph/*"], Except := ["github.com/sourcegraph/src-cli"],
        only := [prefixGlob "github.com/sourcegraph/"],
        except := [literalGlob "github.com/sourcegraph/src-cli"], Default := none }
      { Name := "gitlab.com/other/repo" } = false :=
  ⟨(isRepoPublished_only _ _ rfl (by simp)).2.2.1
      ⟨prefixGlob "github.com/sourcegraph/", by simp, by decide⟩
      ⟨literalGlob "github.com/sourcegraph/src-cli", by simp, by decide⟩,
    (isRepoPublished_only _ _ rfl (by simp)).2.2.2 (by decide)⟩

/-- C9: without a default and with an empty only-list, a repository is
published unless an except-glob matches its name: the result is false exactly
when one matches, and true when both lists are empty. -/
theorem isRepoPublished_except (p : OverridableBool) (repo : Repository)
    (hd : p.Default = none) (ho : p.only = []) :
    (p.IsRepoPublished repo = false ↔ ∃ g ∈ p.except, g.Match repo.Name = true) ∧
    (p.IsRepoPublished repo = true ↔ ∀ g ∈ p.except, g.Match repo.Name = false) ∧
    (p.except = [] → p.IsRepoPublished repo = true) := by
  have hval : p.IsRepoPublished repo = !matchesAny p.except repo.Name := by
    simp only [OverridableBool.IsRepoPublished, hd, ho, List.length_nil, gt_iff_lt,
      Nat.lt_irrefl, if_false]
    cases matchesAny p.except repo.Name <;> rfl
  have hfalse : p.IsRepoPublished repo = false ↔ ∃ g ∈ p.except, g.Match repo.Name = true := by
    rw [hval, ← matchesAny_eq_true_iff]
    cases matchesAny p.except repo.Name <;> simp
  refine ⟨hfalse, ?_, ?_⟩
  · constructor
    · intro ht g hg
      cases hm : g.Match repo.Name with
      | false => rfl
      | true =>
        have := hfalse.mpr ⟨g, hg, hm⟩
        rw [ht] at this
        exact absurd this (by simp)
    · intro hall
      cases hp : p.IsRepoPublished repo with
      | true => rfl
      | false =>
        obtain ⟨g, hg, hgm⟩ := hfalse.mp hp
        rw [hall g hg] at hgm
        exact absurd hgm (by simp)
  · intro he
    rw [hval, he]
    rfl

/-- With no only-list and `github.com/sourcegraph/src-cli` on the except-list
that repository is not published, and with both lists empty it is. -/
theorem isRepoPublished_except_witness :
    OverridableBool.IsRepoPublished
      { Only := [], Except := ["github.com/sourcegraph/src-cli"], only := [],
        except := [literalGlob "github.com/sourcegraph/src-cli"], Default := none }
      { Name := "github.com/sourcegraph/src-cli" } = false ∧
    OverridableBool.IsRepoPublished
      { Only := [], Except := [], only := [], except := [], Default := none }
      { Name := "github.com/sourcegraph/src-cli" } = true :=
  ⟨(isRepoPublished_except _ _ rfl rfl).1.mpr
      ⟨literalGlob "github.com/sourcegraph/src-cli", by simp, by decide⟩,
    (isRepoPublished_except _ _ rfl rfl).2.2 rfl⟩

/-- C10: when the OverridableBool has a default, IsRepoPublished returns that
value for every repository, whatever the only- and except-lists hold. -/
theorem isRepoPublished_default (p : OverridableBool) (repo : Repository) (d : Bool)
    (hd : p.Default = some d) : p.IsRepoPublished repo = d := by
  simp [OverridableBool.IsRepoPublished, hd]

/-- The default `false` wins over an only-glob that matches the repository. -/
theorem isRepoPublished_default_witness :
    OverridableBool.IsRepoPublished
      { Only := ["github.com/sourcegraph/*"], Except := [],
        only := [prefixGlob "github.com/sourcegraph/"], except := [], Default := some false }
      { Name := "github.com/sourcegraph/src-cli" } = false :=
  isRepoPublished_default _ _ false rfl

/-! ## `OverridableString.Value` -/

theorem valueOf_no_match (dflt : String) (rules : List MatchValue) (name : String)
    (h : ∀ mv ∈ rules, mv.matchGlob.Match name = false) : valueOf dflt rules name = dflt := by
  induction rules with
  | nil => rfl
  | cons mv rest ih =>
    have hmv : mv.matchGlob.Match name = false := h mv (List.mem_cons_self _ _)
    simp only [valueOf, hmv]
    exact ih (fun r hr => h r (List.mem_cons_of_mem _ hr))

theorem valueOf_first_match (dflt : String) (pre : List MatchValue) (mv : MatchValue)
    (post : List MatchValue) (name : String)
    (hpre : ∀ r ∈ pre, r.matchGlob.Match name = false) (hmv : mv.matchGlob.Match name = true) :
    valueOf dflt (pre ++ mv :: post) name = mv.Value := by
  induction pre with
  | nil => simp [valueOf, hmv]
  | cons r rest ih =>
    have hr : r.matchGlob.Match name = false := hpre r (List.mem_cons_self _ _)
    simp only [List.cons_append, valueOf, hr]
    exact ih (fun x hx => hpre x (List.mem_cons_of_mem _ hx))

/-- A list of rules has no matching rule, or splits at its first matching
rule. -/
theorem first_match_or_none (rules : List MatchValue) (name : String) :
    (∀ mv ∈ rules, mv.matchGlob.Match name = false) ∨
      ∃ pre mv post, rules = pre ++ mv :: post ∧
        (∀ r ∈ pre, r.matchGlob.Match name = false) ∧ mv.matchGlob.Match name = true := by
  induction rules with
  | nil => left; simp
  | cons mv rest ih =>
    by_cases hmv : mv.matchGlob.Match name = true
    · right
      exact ⟨[], mv, rest, rfl, by simp, hmv⟩
    · rcases ih with hnone | ⟨pre, mv', post, hsplit, hpre, hmv'⟩
      · left
        intro x hx
        rcases List.mem_cons.mp hx with rfl | hx
        · simpa using hmv
        · exact hnone x hx
      · right
        refine ⟨mv :: pre, mv', post, by simp [hsplit], ?_, hmv'⟩
        intro x hx
        rcases List.mem_cons.mp hx with rfl | hx
        · simpa using hmv
        · exact hpre x hx

/-- C11: `Value` returns the value of the first rule of `Only`, in list
order, whose glob matches the name of the repository, whatever rules follow
it; it returns the default when no rule matches, and only then: the result is
the default, whatever string the default is, exactly when no rule matches. -/
theorem overridableString_value_first_match (o : OverridableString) (repo : Repository) :
    (∀ pre mv post, o.Only = pre ++ mv :: post →
      (∀ r ∈ pre, r.matchGlob.Match repo.Name = false) →
      mv.matchGlob.Match repo.Name = true →
      o.Value repo = mv.Value ∧
        ∀ later : List MatchValue,
          OverridableString.Value { o with Only := pre ++ mv :: later } repo = mv.Value) ∧
    ((∀ mv ∈ o.Only, mv.matchGlob.Match repo.Name = false) → o.Value repo = o.Default) ∧
    ((∀ d : String, OverridableString.Value { o with Default := d } repo = d) ↔
      ∀ mv ∈ o.Only, mv.matchGlob.Match repo.Name = false) := by
  refine ⟨?_, ?_, ?_⟩
  · intro pre mv post hsplit hpre hmv
    constructor
    · unfold OverridableString.Value
      rw [hsplit]
      exact valueOf_first_match _ _ _ _ _ hpre hmv
    · intro later
      exact valueOf_first_match _ _ _ _ _ hpre hmv
  · intro hnone
    exact valueOf_no_match _ _ _ hnone
  · constructor
    · intro hall
      rcases first_match_or_none o.Only repo.Name with hnone | ⟨pre, mv, post, hsplit, hpre, hmv⟩
      · exact hnone
      · exfalso
        have h1 := hall (mv.Value ++ "x")
        unfold OverridableString.Value at h1
        simp only [hsplit] at h1
        rw [valueOf_first_match _ _ _ _ _ hpre hmv] at h1
        have hlen := congrArg String.length h1
        simp only [String.length_append] at hlen
        have hx : "x".length = 1 := rfl
        omega
    · intro hnone d
      exact valueOf_no_match _ _ _ hnone

/-- Two rules match `github.com/sourcegraph/src-cli`; the title of the first
one is returned. No rule matches `gitlab.com/other/repo`, which gets the
default. -/
theorem overridableString_value_first_match_witness :
    OverridableString.Value
      { Default := "default title",
        Only := [{ Match := "bitbucket.org/*", Value := "other",
                   matchGlob := prefixGlob "bitbucket.org/" },
                 { Match := "github.com/sourcegraph/*", Value := "first",
                   matchGlob := prefixGlob "github.com/sourcegraph/" },
                 { Match := "github.com/*", Value := "second",
                   matchGlob := prefixGlob "github.com/" }] }
      { Name := "github.com/sourcegraph/src-cli" } = "first" ∧
    OverridableString.Value
      { Default := "default title",
        Only := [{ Match := "bitbucket.org/*", Value := "other",
                   matchGlob := prefixGlob "bitbucket.org/" },
                 { Match := "github.com/sourcegraph/*", Value := "first",
                   matchGlob := prefixGlob "github.com/sourcegraph/" },
                 { Match := "github.com/*", Value := "second",
                   matchGlob := prefixGlob "github.com/" }] }
      { Name := "gitlab.com/other/repo" } = "default title" :=
  ⟨((overridableString_value_first_match _ _).1
      [{ Match := "bitbucket.org/*", Value := "other",
         matchGlob := prefixGlob "bitbucket.org/" }]
      { Match := "github.com/sourcegraph/*", Value := "first",
        matchGlob := prefixGlob "github.com/sourcegraph/" }
      [{ Match := "github.com/*", Value := "second", matchGlob := prefixGlob "github.com/" }]
      rfl (by decide) (by decide)).1,
    (overridableString_value_first_match _ _).2.1 (by decide)⟩

/-! ## The in-memory execution cache -/

theorem GoMap.lookup_delete {V : Type} (m : GoMap V) (k k' : String) :
    (m.delete k).lookup k' = if k = k' then none else m.lookup k' := by
  induction m with
  | nil => simp [GoMap.delete, GoMap.lookup]
  | cons e rest ih =>
    obtain ⟨k0, v0⟩ := e
    by_cases h : k0 = k
    · subst h
      by_cases h2 : k0 = k'
      · subst h2
        simpa [GoMap.delete] using ih
      · simp [GoMap.delete, GoMap.lookup, h2, ih]
    · by_cases h' : k0 = k'
      · subst h'
        have : ¬ k = k0 := fun e => h e.symm
        simp [GoMap.delete, GoMap.lookup, h, this]
      · simp [GoMap.delete, GoMap.lookup, h, h', ih]

theorem GoMap.delete_of_lookup_eq_none {V : Type} (m : GoMap V) (k : String)
    (h : m.lookup k = none) : m.delete k = m := by
  induction m with
  | nil => rfl
  | cons e rest ih =>
    obtain ⟨k0, v0⟩ := e
    by_cases hk : k0 = k
    · simp [GoMap.lookup, hk] at h
    · simp only [GoMap.lookup, hk, if_false] at h
      simp [GoMap.delete, hk, ih h]

/-- C12: after `Set(key, r)` with a key whose `Key()` succeeds, `Set` has
returned nil and `Get(key)` returns `(r, true, nil)`, whatever the cache held
before. -/
theorem cache_get_after_set (c : inMemoryExecutionCache) (key : ExecutionCacheKey)
    (k : String) (r : ExecutionResult) (hk : key.Key = .ok k) :
    (c.Set key r).2 = none ∧ (c.Set key r).1.Get key = (r, true, none) := by
  simp [inMemoryExecutionCache.Set, inMemoryExecutionCache.Get, hk, GoMap.lookup_store]

/-- A result written over an older one under the same key is the one read
back. -/
theorem cache_get_after_set_witness :
    ((({ cache := GoMap.empty.store "f00b4r3r" ExecutionResult.zero } :
        inMemoryExecutionCache).Set { Key := .ok "f00b4r3r" }
      (resultAdding diff1 ["1/1.txt"])).1.Get { Key := .ok "f00b4r3r" }) =
      (resultAdding diff1 ["1/1.txt"], true, none) :=
  (cache_get_after_set _ _ "f00b4r3r" _ rfl).2

/-- C20: `Clear(key)` with a key whose `Key()` succeeds returns nil; after it
`Get(key)` is a miss, the zero result with `false` and nil; `Get` of a key
with another key string returns what it returned before; and when the key had
no entry the cache is left as it was. -/
theorem cache_clear (c : inMemoryExecutionCache) (key : ExecutionCacheKey) (k : String)
    (hk : key.Key = .ok k) :
    (c.Clear key).2 = none ∧
    (c.Clear key).1.Get key = (ExecutionResult.zero, false, none) ∧
    (∀ (other : ExecutionCacheKey) (k' : String), other.Key = .ok k' → k' ≠ k →
      (c.Clear key).1.Get other = c.Get other) ∧
    (c.cache.lookup k = none → (c.Clear key).1 = c) := by
  refine ⟨?_, ?_, ?_, ?_⟩
  · simp [inMemoryExecutionCache.Clear, hk]
  · simp [inMemoryExecutionCache.Clear, inMemoryExecutionCache.Get, hk, GoMap.lookup_delete]
  · intro other k' hother hne
    have hne' : ¬ k = k' := fun e => hne e.symm
    simp [inMemoryExecutionCache.Clear, inMemoryExecutionCache.Get, hk, hother,
      GoMap.lookup_delete, hne']
  · intro habsent
    simp [inMemoryExecutionCache.Clear, hk, GoMap.delete_of_lookup_eq_none _ _ habsent]

/-- A cache with entries under `a` and `b`: after `Clear` of `a`, `a` is a
miss and `b` is read as before; `Clear` of the absent `c` changes nothing. -/
theorem cache_clear_witness :
    (({ cache := (GoMap.empty.store "a" ExecutionResult.zero).store "b"
          (resultAdding diff2 ["1/2/2.txt"]) } :
        inMemoryExecutionCache).Clear { Key := .ok "a" }).1.Get { Key := .ok "a" } =
      (ExecutionResult.zero, false, none) ∧
    (({ cache := (GoMap.empty.store "a" ExecutionResult.zero).store "b"
          (resultAdding diff2 ["1/2/2.txt"]) } :
        inMemoryExecutionCache).Clear { Key := .ok "a" }).1.Get { Key := .ok "b" } =
      (resultAdding diff2 ["1/2/2.txt"], true, none) ∧
    (({ cache := (GoMap.empty.store "a" ExecutionResult.zero).store "b"
          (resultAdding diff2 ["1/2/2.txt"]) } :
        inMemoryExecutionCache).Clear { Key := .ok "c" }).1 =
      { cache := (GoMap.empty.store "a" ExecutionResult.zero).store "b"
          (resultAdding diff2 ["1/2/2.txt"]) } :=
  ⟨(cache_clear _ _ "a" rfl).2.1,
    ((cache_clear _ { Key := .ok "a" } "a" rfl).2.2.1 { Key := .ok "b" } "b" rfl
      (by decide)).trans (by rfl),
    (cache_clear _ _ "c" rfl).2.2.2 (by rfl)⟩

/-! ## The temporary directory of the campaign command -/

/-- C13, as the specification words it, fails: with `CAMPAIGNS_TMP_DIR` set to
`/scratch` and nothing else set, on macOS, the function returns `/tmp`; the
variable it reads is `SRC_CAMPAIGNS_TMP_DIR`. -/
theorem tempDirPrefix_unprefixed_variable_counterexample :
    (fun name => if name = "CAMPAIGNS_TMP_DIR" then "/scratch" else "") "CAMPAIGNS_TMP_DIR" =
      "/scratch" ∧
    campaignsDefaultTempDirPrefix
      (fun name => if name = "CAMPAIGNS_TMP_DIR" then "/scratch" else "") "darwin"
      "/var/folders/zz" = "/tmp" ∧
    campaignsDefaultTempDirPrefix
      (fun name => if name = "CAMPAIGNS_TMP_DIR" then "/scratch" else "") "darwin"
      "/var/folders/zz" ≠ "/scratch" := by
  refine ⟨by decide, by decide, by decide⟩

/-- C13, amended: the variable that overrides the default prefix is
`SRC_CAMPAIGNS_TMP_DIR`: whenever it is set to a non-empty value `p` the
function returns `p`, on every platform. -/
theorem tempDirPrefix_override (getenv : String → String) (goos osTempDir p : String)
    (hset : getenv "SRC_CAMPAIGNS_TMP_DIR" = p) (hp : p ≠ "") :
    campaignsDefaultTempDirPrefix getenv goos osTempDir = p := by
  simp [campaignsDefaultTempDirPrefix, hset, hp]

/-- With `SRC_CAMPAIGNS_TMP_DIR` set to `/scratch` on Linux the prefix is
`/scratch`. -/
theorem tempDirPrefix_override_witness :
    campaignsDefaultTempDirPrefix
      (fun name => if name = "SRC_CAMPAIGNS_TMP_DIR" then "/scratch" else "") "linux" "/tmp" =
      "/scratch" :=
  tempDirPrefix_override _ "linux" "/tmp" "/scratch" (by decide) (by decide)

/-- C16, as worded, fails away from macOS: on Linux with no
`SRC_CAMPAIGNS_TMP_DIR` and `os.TempDir()` returning `/var/tmp` (the value of
`TMPDIR`), the function returns `/var/tmp` and not `/tmp`. -/
theorem tempDirPrefix_not_always_tmp_counterexample :
    campaignsDefaultTempDirPrefix (fun _ => "") "linux" "/var/tmp" = "/var/tmp" ∧
    campaignsDefaultTempDirPrefix (fun _ => "") "linux" "/var/tmp" ≠ "/tmp" := by
  refine ⟨by decide, by decide⟩

/-- C16, amended: the function returns the value of `SRC_CAMPAIGNS_TMP_DIR`
when that is set to a non-empty string; otherwise it returns `/tmp` on macOS
(`runtime.GOOS == "darwin"`) and what `os.TempDir()` returns on every other
platform. -/
theorem tempDirPrefix_cases (getenv : String → String) (goos osTempDir : String) :
    (getenv "SRC_CAMPAIGNS_TMP_DIR" ≠ "" →
      campaignsDefaultTempDirPrefix getenv goos osTempDir = getenv "SRC_CAMPAIGNS_TMP_DIR") ∧
    (getenv "SRC_CAMPAIGNS_TMP_DIR" = "" → goos = "darwin" →
      campaignsDefaultTempDirPrefix getenv goos osTempDir = "/tmp") ∧
    (getenv "SRC_CAMPAIGNS_TMP_DIR" = "" → goos ≠ "darwin" →
      campaignsDefaultTempDirPrefix getenv goos osTempDir = osTempDir) := by
  refine ⟨?_, ?_, ?_⟩
  · intro h
    simp [campaignsDefaultTempDirPrefix, h]
  · intro h hd
    simp [campaignsDefaultTempDirPrefix, h, hd]
  · intro h hd
    simp [campaignsDefaultTempDirPrefix, h, hd]

/-- The three cases at concrete values: the variable set, macOS without the
variable, Windows without the variable. -/
theorem tempDirPrefix_cases_witness :
    campaignsDefaultTempDirPrefix
      (fun name => if name = "SRC_CAMPAIGNS_TMP_DIR" then "/data/tmp" else "") "darwin"
      "/var/folders/zz" = "/data/tmp" ∧
    campaignsDefaultTempDirPrefix (fun _ => "") "darwin" "/var/folders/zz" = "/tmp" ∧
    campaignsDefaultTempDirPrefix (fun _ => "") "windows" "C:/Users/me/AppData/Local/Temp" =
      "C:/Users/me/AppData/Local/Temp" :=
  ⟨(tempDirPrefix_cases _ "darwin" "/var/folders/zz").1 (by decide),
    (tempDirPrefix_cases (fun _ => "") "darwin" "/var/folders/zz").2.1 rfl rfl,
    (tempDirPrefix_cases (fun _ => "") "windows" "C:/Users/me/AppData/Local/Temp").2.2 rfl
      (by decide)⟩

/-! ## `campaignsExecute`: the executor and the check of the flags -/

theorem sendChangesetSpecs_events (svc : Service) (specs : List ChangesetSpec) :
    ∀ e ∈ (sendChangesetSpecs svc specs).2, ∃ spec, e = Event.CreateChangesetSpec spec := by
  induction specs with
  | nil => simp [sendChangesetSpecs]
  | cons spec rest ih =>
    intro e he
    unfold sendChangesetSpecs at he
    split at he
    · simp only [List.mem_singleton] at he
      exact ⟨spec, he⟩
    · split at he
      · rename_i heq
        rw [heq] at ih
        rcases List.mem_cons.mp he with h | h
        · exact ⟨spec, h⟩
        · exact ih e h
      · rename_i heq
        rw [heq] at ih
        rcases List.mem_cons.mp he with h | h
        · exact ⟨spec, h⟩
        · exact ih e h

/-- The part of `campaignsExecute` after the check of the flags makes no
executor and no cache. -/
theorem campaignsExecuteSpec_events (svc : Service) (opts : ExecutorOpts)
    (flags : campaignsApplyFlags) (specFile : ReadCloser) :
    ∀ e ∈ (campaignsExecuteSpec svc opts flags specFile).2,
      (∀ o, e ≠ Event.NewExecutor o) ∧ (∀ d, e ≠ Event.NewExecutionCache d) := by
  intro e he
  have hsent : ∀ specs, e ∈ (sendChangesetSpecs svc specs).2 →
      (∀ o, e ≠ Event.NewExecutor o) ∧ (∀ d, e ≠ Event.NewExecutionCache d) := by
    intro specs hs
    obtain ⟨spec, rfl⟩ := sendChangesetSpecs_events svc specs e hs
    exact ⟨fun o => by simp, fun d => by simp⟩
  unfold campaignsExecuteSpec at he
  repeat' split at he
  all_goals
    simp only [List.mem_cons, List.mem_append, List.mem_singleton, List.not_mem_nil,
      or_false, List.cons_append, List.nil_append] at he
  all_goals
    repeat
      rcases he with h | he
      · first
        | exact hsent _ h
        | (subst h
           exact ⟨fun o => by simp, fun d => by simp⟩)
  all_goals
    first
    | exact hsent _ he
    | (subst he
       exact ⟨fun o => by simp, fun d => by simp⟩)

theorem campaignsExecute_events (osOpen : String → Except String ReadCloser)
    (gomaxprocs : Int) (svc : Service) (flags : campaignsApplyFlags) :
    ∃ events closing,
      (campaignsExecute osOpen gomaxprocs svc flags).2 =
        [Event.NewExecutionCache flags.cacheDir,
          Event.NewExecutor (executorOpts gomaxprocs flags)] ++ events ++ closing ∧
      (∀ e ∈ events, ∀ o, e ≠ Event.NewExecutor o) ∧
      (∀ e ∈ closing, ∃ f, e = Event.Close f) := by
  unfold campaignsExecute
  cases hopen : campaignsOpenFileFlag osOpen (some flags.file) with
  | error err =>
    refine ⟨[], [], ?_, by simp, by simp⟩
    by_cases hn : flags.namespaceName = "" <;> simp [hn]
  | ok specFile =>
    by_cases hn : flags.namespaceName = ""
    · refine ⟨[], [Event.Close specFile], ?_, by simp, by simp⟩
      simp [hn]
    · refine ⟨(campaignsExecuteSpec svc (executorOpts gomaxprocs flags) flags specFile).2,
        [Event.Close specFile], ?_, ?_, by simp⟩
      · simp [hn]
      · intro e he
        exact (campaignsExecuteSpec_events _ _ _ _ e he).1

/-- C14: `campaignsExecute` makes one executor, whatever the flags and the
service; its parallelism is the value of `-j` when that is positive, and
`runtime.GOMAXPROCS(0)` when it is zero, the default of the flag, or
negative; so it is positive as soon as `GOMAXPROCS` is at least 1. -/
theorem campaignsExecute_parallelism (osOpen : String → Except String ReadCloser)
    (gomaxprocs : Int) (svc : Service) (flags : campaignsApplyFlags) :
    ∃ opts, Event.NewExecutor opts ∈ (campaignsExecute osOpen gomaxprocs svc flags).2 ∧
      (∀ o, Event.NewExecutor o ∈ (campaignsExecute osOpen gomaxprocs svc flags).2 → o = opts) ∧
      (0 < flags.parallelism → opts.Parallelism = flags.parallelism) ∧
      (flags.parallelism ≤ 0 → opts.Parallelism = gomaxprocs) ∧
      (1 ≤ gomaxprocs → 0 < opts.Parallelism) := by
  obtain ⟨events, closing, htrace, hevents, hclosing⟩ :=
    campaignsExecute_events osOpen gomaxprocs svc flags
  refine ⟨executorOpts gomaxprocs flags, ?_, ?_, ?_, ?_, ?_⟩
  · rw [htrace]; simp
  · intro o ho
    rw [htrace] at ho
    simp only [List.cons_append, List.nil_append, List.mem_cons, List.mem_append] at ho
    rcases ho with h | h | h | h
    · exact absurd h (by simp)
    · simpa using h
    · exact absurd rfl (hevents _ h o)
    · obtain ⟨f, hf⟩ := hclosing _ h
      exact absurd hf (by simp)
  · intro hpos
    have : ¬ flags.parallelism ≤ 0 := by omega
    simp [executorOpts, this]
  · intro hle
    simp [executorOpts, hle]
  · intro hg
    by_cases hle : flags.parallelism ≤ 0
    · simp only [executorOpts, hle, if_true]; omega
    · simp only [executorOpts, hle, if_false]; omega

/-- With `-j 4` the executor gets parallelism 4; without `-j` on a machine
with `GOMAXPROCS` 8 it gets 8; and with `-j -2` it gets 8 as well. -/
theorem campaignsExecute_parallelism_witness :
    (∃ opts, Event.NewExecutor opts ∈ (campaignsExecute openCampaignYaml 8 quietService
        { sampleFlags with parallelism := 4 }).2 ∧ opts.Parallelism = 4) ∧
    (∃ opts, Event.NewExecutor opts ∈
        (campaignsExecute openCampaignYaml 8 quietService sampleFlags).2 ∧
      opts.Parallelism = 8) ∧
    (∃ opts, Event.NewExecutor opts ∈ (campaignsExecute openCampaignYaml 8 quietService
        { sampleFlags with parallelism := -2 }).2 ∧ opts.Parallelism = 8) := by
  refine ⟨?_, ?_, ?_⟩
  · obtain ⟨opts, hmem, _, hpos, _, _⟩ := campaignsExecute_parallelism openCampaignYaml 8
      quietService { sampleFlags with parallelism := 4 }
    exact ⟨opts, hmem, hpos (by decide)⟩
  · obtain ⟨opts, hmem, _, _, hle, _⟩ := campaignsExecute_parallelism openCampaignYaml 8
      quietService sampleFlags
    exact ⟨opts, hmem, hle (by decide)⟩
  · obtain ⟨opts, hmem, _, _, hle, _⟩ := campaignsExecute_parallelism openCampaignYaml 8
      quietService { sampleFlags with parallelism := -2 }
    exact ⟨opts, hmem, hle (by decide)⟩

/-- C15: when the namespace flag is empty `campaignsExecute` returns the empty
spec id, the empty URL and an error that holds the usage error; the only
things it has done are to make the cache and the executor and to close the
spec file it had opened: nothing is parsed, resolved, prepared, executed or
uploaded. When the spec file cannot be opened either, the error holds both
errors, the one of the file first. -/
theorem campaignsExecute_missing_namespace (osOpen : String → Except String ReadCloser)
    (gomaxprocs : Int) (svc : Service) (flags : campaignsApplyFlags)
    (hn : flags.namespaceName = "") :
    (∀ specFile, campaignsOpenFileFlag osOpen (some flags.file) = .ok specFile →
      campaignsExecute osOpen gomaxprocs svc flags =
        (("", "", some (.multi [Err.usage "a namespace must be provided with -namespace"])),
          [Event.NewExecutionCache flags.cacheDir,
            Event.NewExecutor (executorOpts gomaxprocs flags), Event.Close specFile])) ∧
    (∀ err, campaignsOpenFileFlag osOpen (some flags.file) = .error err →
      campaignsExecute osOpen gomaxprocs svc flags =
        (("", "", some (.multi [err, Err.usage "a namespace must be provided with -namespace"])),
          [Event.NewExecutionCache flags.cacheDir,
            Event.NewExecutor (executorOpts gomaxprocs flags)])) ∧
    (campaignsExecute osOpen gomaxprocs svc flags).1.1 = "" ∧
    (campaignsExecute osOpen gomaxprocs svc flags).1.2.1 = "" ∧
    (∃ errs, (campaignsExecute osOpen gomaxprocs svc flags).1.2.2 = some (.multi errs) ∧
      Err.usage "a namespace must be provided with -namespace" ∈ errs) ∧
    (∀ e ∈ (campaignsExecute osOpen gomaxprocs svc flags).2,
      (∃ d, e = Event.NewExecutionCache d) ∨ (∃ o, e = Event.NewExecutor o) ∨
        ∃ f, e = Event.Close f) := by
  have hok : ∀ specFile, campaignsOpenFileFlag osOpen (some flags.file) = .ok specFile →
      campaignsExecute osOpen gomaxprocs svc flags =
        (("", "", some (.multi [Err.usage "a namespace must be provided with -namespace"])),
          [Event.NewExecutionCache flags.cacheDir,
            Event.NewExecutor (executorOpts gomaxprocs flags), Event.Close specFile]) := by
    intro specFile hopen
    simp [campaignsExecute, hopen, hn]
  have herr : ∀ err, campaignsOpenFileFlag osOpen (some flags.file) = .error err →
      campaignsExecute osOpen gomaxprocs svc flags =
        (("", "", some (.multi [err, Err.usage "a namespace must be provided with -namespace"])),
          [Event.NewExecutionCache flags.cacheDir,
            Event.NewExecutor (executorOpts gomaxprocs flags)]) := by
    intro err hopen
    simp [campaignsExecute, hopen, hn]
  refine ⟨hok, herr, ?_⟩
  cases hopen : campaignsOpenFileFlag osOpen (some flags.file) with
  | error err =>
    rw [herr err hopen]
    simp
  | ok specFile =>
    rw [hok specFile hopen]
    simp

/-- The service of the concrete cases called without `-n`: with the spec file
at hand the usage error is returned alone, with a spec file that is not there
it follows the error of the file; the service is not called. With `-n` the
same call goes through to the upload. -/
theorem campaignsExecute_missing_namespace_witness :
    campaignsExecute openCampaignYaml 8 quietService { sampleFlags with namespaceName := "" } =
      (("", "", some (.multi [Err.usage "a namespace must be provided with -namespace"])),
        [Event.NewExecutionCache "/home/me/.cache/sourcegraph/campaigns",
          Event.NewExecutor (executorOpts 8 { sampleFlags with namespaceName := "" }),
          Event.Close (ReadCloser.file "campaign.yaml")]) ∧
    (campaignsExecute openCampaignYaml 8 quietService
      { sampleFlags with namespaceName := "", file := "missing.yaml" }).1 =
      ("", "", some (.multi [Err.other ("cannot open file " ++ quoted "missing.yaml" ++
          ": open missing.yaml: no such file or directory"),
        Err.usage "a namespace must be provided with -namespace"])) ∧
    (campaignsExecute openCampaignYaml 8 quietService sampleFlags).1 =
      ("campaign-spec", "/campaigns/apply/campaign-spec", none) :=
  ⟨(campaignsExecute_missing_namespace openCampaignYaml 8 quietService
      { sampleFlags with namespaceName := "" } rfl).1 _ (by rfl),
    by rfl, by rfl⟩

/-! ## The image list of a release -/

/-- C17: the pattern of `getImageList` does not match every version up to
5.8.0. The versions 4.9.0, 4.8.1 and 3.43.2 are below 5.8.0 and are not
matched, so that a 404 for the version 4.9.0 gives the error "failed to fetch
list of images" and not "unsupported version"; 5.8.0, v5.8.0 and 5.7.10 are
matched. -/
theorem versionRegex_misses_versions_below_5_8_0 :
    versionRegex.MatchString "4.9.0" = false ∧
    versionRegex.MatchString "4.8.1" = false ∧
    versionRegex.MatchString "3.43.2" = false ∧
    versionRegex.MatchString "5.8.0" = true ∧
    versionRegex.MatchString "v5.8.0" = true ∧
    versionRegex.MatchString "5.7.10" = true ∧
    (cosignFor "4.9.0" [] []).getImageList sampleFilepathMatch (answerWith 404 []) =
      .error ("failed to fetch list of images - check that 4.9.0 is a valid Sourcegraph "
        ++ "release: HTTP status 404") ∧
    (cosignFor "5.7.10" [] []).getImageList sampleFilepathMatch (answerWith 404 []) =
      .error ("unsupported version 5.7.10: SBOMs are only available for Sourcegraph "
        ++ "releases after 5.8.0") := by
  refine ⟨by decide, by decide, by decide, by decide, by decide, by decide, by rfl, by rfl⟩

theorem matchesImageFilter_eq_true_iff
    (filepathMatch : String → String → Bool × Option String) (patterns : List String)
    (imageName : String) :
    matchesImageFilter filepathMatch patterns imageName = true ↔
      ∃ pattern ∈ patterns, (filepathMatch pattern imageName).1 = true ∨
        (hasPrefix imageName "sourcegraph/" = true ∧
          (filepathMatch pattern (trimPrefix imageName "sourcegraph/")).1 = true) := by
  induction patterns with
  | nil => simp [matchesImageFilter]
  | cons pattern rest ih =>
    by_cases h1 : (filepathMatch pattern imageName).1 = true
    · simp [matchesImageFilter, h1]
    · by_cases h2 : (hasPrefix imageName "sourcegraph/" &&
          (filepathMatch pattern (trimPrefix imageName "sourcegraph/")).1) = true
      · have h2' := h2
        rw [Bool.and_eq_true] at h2'
        simp [matchesImageFilter, h1, h2, h2'.1, h2'.2]
      · have h2' : ¬ (hasPrefix imageName "sourcegraph/" = true ∧
            (filepathMatch pattern (trimPrefix imageName "sourcegraph/")).1 = true) := by
          rw [← Bool.and_eq_true]; exact h2
        simp only [matchesImageFilter, h1, h2, List.mem_cons, exists_eq_or_imp,
          h2', or_self, false_or]
        simpa using ih

/-- C18: `matchesImageFilter` is true exactly when some pattern matches the
full image name, or the image name starts with `sourcegraph/` and some
pattern matches the name without that prefix. It is false for the empty list
of patterns. A pattern for which `filepath.Match` returns an error, and with
it `matched` false, adds nothing: the result is that of the other patterns,
a boolean and never an error. -/
theorem matchesImageFilter_iff
    (filepathMatch : String → String → Bool × Option String) (patterns : List String)
    (imageName : String) :
    (matchesImageFilter filepathMatch patterns imageName = true ↔
      ∃ pattern ∈ patterns, (filepathMatch pattern imageName).1 = true ∨
        (hasPrefix imageName "sourcegraph/" = true ∧
          (filepathMatch pattern (trimPrefix imageName "sourcegraph/")).1 = true)) ∧
    matchesImageFilter filepathMatch [] imageName = false ∧
    (∀ pre bad post, patterns = pre ++ bad :: post →
      (∀ name, (filepathMatch bad name).2 ≠ none ∧ (filepathMatch bad name).1 = false) →
      matchesImageFilter filepathMatch patterns imageName =
        matchesImageFilter filepathMatch (pre ++ post) imageName) := by
  refine ⟨matchesImageFilter_eq_true_iff _ _ _, rfl, ?_⟩
  intro pre bad post hsplit hbad
  subst hsplit
  rw [Bool.eq_iff_iff, matchesImageFilter_eq_true_iff, matchesImageFilter_eq_true_iff]
  constructor
  · rintro ⟨p, hp, hm⟩
    simp only [List.mem_append, List.mem_cons] at hp
    rcases hp with hp | rfl | hp
    · exact ⟨p, List.mem_append_left _ hp, hm⟩
    · rcases hm with hm | ⟨_, hm⟩
      · rw [(hbad _).2] at hm; exact absurd hm (by simp)
      · rw [(hbad _).2] at hm; exact absurd hm (by simp)
    · exact ⟨p, List.mem_append_right _ hp, hm⟩
  · rintro ⟨p, hp, hm⟩
    refine ⟨p, ?_, hm⟩
    simp only [List.mem_append, List.mem_cons]
    rcases List.mem_append.mp hp with hp | hp
    · exact Or.inl hp
    · exact Or.inr (Or.inr hp)

/-- The pattern `front*` matches `sourcegraph/frontend` through the name
without its prefix and does not match `sourcegraph/gitserver`; the malformed
pattern `[` before it changes nothing. -/
theorem matchesImageFilter_iff_witness :
    matchesImageFilter sampleFilepathMatch ["[", "front*"] "sourcegraph/frontend" = true ∧
    matchesImageFilter sampleFilepathMatch ["[", "front*"] "sourcegraph/gitserver" = false ∧
    matchesImageFilter sampleFilepathMatch ["[", "front*"] "sourcegraph/frontend" =
      matchesImageFilter sampleFilepathMatch ["front*"] "sourcegraph/frontend" :=
  ⟨(matchesImageFilter_iff sampleFilepathMatch ["[", "front*"] "sourcegraph/frontend").1.mpr
      ⟨"front*", by decide, Or.inr (by decide)⟩,
    by decide,
    (matchesImageFilter_iff sampleFilepathMatch ["[", "front*"] "sourcegraph/frontend").2.2
      [] "[" ["front*"] rfl (fun name => by
        have h : sampleFilepathMatch "[" name = (false, some "syntax error in pattern") := by
          unfold sampleFilepathMatch
          rw [if_pos (by decide)]
        simp [h])⟩


/-- The name of an image is the text of its line before the first colon. -/
theorem imageNameOf_eq (image : String) :
    imageNameOf image = String.mk (image.data.takeWhile (fun ch => ch ≠ ':')) := by
  unfold imageNameOf splitColon
  cases h : image.data.dropWhile (fun ch => ch ≠ ':') with
  | nil =>
    have happ := List.takeWhile_append_dropWhile (fun ch => decide (ch ≠ ':')) image.data
    rw [h, List.append_nil] at happ
    simp only [ne_eq, decide_not] at happ
    simp [happ]
  | cons ch after => simp

theorem scanImages_eq (filepathMatch : String → String → Bool × Option String)
    (c : cosignConfig) (lines : List String) :
    scanImages filepathMatch c lines =
      (((lines.map trimSpace).filter (fun image => decide (image ≠ ""))).map imageNameOf).filter
        (fun name =>
          (c.imageFilters.isEmpty || matchesImageFilter filepathMatch c.imageFilters name) &&
          (c.excludeImageFilters.isEmpty ||
            !matchesImageFilter filepathMatch c.excludeImageFilters name)) := by
  induction lines with
  | nil => rfl
  | cons line rest ih =>
    by_cases hline : trimSpace line = ""
    · simp [scanImages, hline, ih]
    · have hin : (c.imageFilters.length > 0) ↔ c.imageFilters.isEmpty = false := by
        cases c.imageFilters <;> simp
      have hex : (c.excludeImageFilters.length > 0) ↔ c.excludeImageFilters.isEmpty = false := by
        cases c.excludeImageFilters <;> simp
      simp only [scanImages, hline, List.map_cons, List.filter_cons, ne_eq, not_false_eq_true,
        decide_True, if_true, ← ih]
      cases h1 : c.imageFilters.isEmpty <;>
        cases h2 : c.excludeImageFilters.isEmpty <;>
        cases h3 : matchesImageFilter filepathMatch c.imageFilters (imageNameOf (trimSpace line)) <;>
        cases h4 : matchesImageFilter filepathMatch c.excludeImageFilters
          (imageNameOf (trimSpace line)) <;>
        simp_all

/-- C19: for a response with status 200 whose body is read without error,
`getImageList` returns, in the order of the lines, the names of the images
(the text before the first colon of every trimmed line that is not empty)
that match an `--image` filter when there is one and match no
`--exclude-image` filter when there is one; a name that matches a filter of
both kinds is not returned. -/
theorem getImageList_ok (filepathMatch : String → String → Bool × Option String)
    (httpGet : String → Except String Response) (c : cosignConfig) (resp : Response)
    (hget : httpGet c.getImageReleaseListURL = .ok resp) (hstatus : resp.StatusCode = 200)
    (hscan : resp.ScanErr = none) :
    c.getImageList filepathMatch httpGet =
      .ok ((((resp.Lines.map trimSpace).filter (fun image => decide (image ≠ ""))).map
        (fun image => String.mk (image.data.takeWhile (fun ch => ch ≠ ':')))).filter
        (fun name =>
          (c.imageFilters.isEmpty || matchesImageFilter filepathMatch c.imageFilters name) &&
          (c.excludeImageFilters.isEmpty ||
            !matchesImageFilter filepathMatch c.excludeImageFilters name))) ∧
    (∀ images name, c.getImageList filepathMatch httpGet = .ok images →
      matchesImageFilter filepathMatch c.imageFilters name = true →
      matchesImageFilter filepathMatch c.excludeImageFilters name = true → name ∉ images) := by
  have hval : c.getImageList filepathMatch httpGet =
      .ok ((((resp.Lines.map trimSpace).filter (fun image => decide (image ≠ ""))).map
        (fun image => String.mk (image.data.takeWhile (fun ch => ch ≠ ':')))).filter
        (fun name =>
          (c.imageFilters.isEmpty || matchesImageFilter filepathMatch c.imageFilters name) &&
          (c.excludeImageFilters.isEmpty ||
            !matchesImageFilter filepathMatch c.excludeImageFilters name))) := by
    have hmap : (fun image => String.mk (image.data.takeWhile (fun ch => ch ≠ ':'))) =
        imageNameOf := by
      funext image
      exact (imageNameOf_eq image).symm
    rw [hmap, ← scanImages_eq]
    simp [cosignConfig.getImageList, hget, hstatus, hscan]
  refine ⟨hval, ?_⟩
  intro images name himages hin hex hmem
  rw [hval] at himages
  cases himages
  rw [List.mem_filter] at hmem
  have hnonempty : c.excludeImageFilters.isEmpty = false := by
    cases hl : c.excludeImageFilters with
    | nil => rw [hl] at hex; simp [matchesImageFilter] at hex
    | cons p ps => rfl
  have := hmem.2
  simp [hex, hnonempty] at this

/-- The release list of the concrete cases with the filters `front*` and
`gitserver` and the exclusion `git*`: `sourcegraph/frontend` is returned,
`sourcegraph/gitserver` matches a filter of both kinds and is left out, the
third image matches no `--image` filter; without filters the three names
come back in the order of the lines. -/
theorem getImageList_ok_witness :
    (cosignFor "5.9.0" ["front*", "gitserver"] ["git*"]).getImageList sampleFilepathMatch
        (answerWith 200 sampleImageLines) = .ok ["sourcegraph/frontend"] ∧
    (cosignFor "5.9.0" [] []).getImageList sampleFilepathMatch
        (answerWith 200 sampleImageLines) =
      .ok ["sourcegraph/frontend", "sourcegraph/gitserver", "sourcegraph/postgres-12-alpine"] :=
  ⟨((getImageList_ok sampleFilepathMatch (answerWith 200 sampleImageLines)
      (cosignFor "5.9.0" ["front*", "gitserver"] ["git*"])
      { StatusCode := 200, Lines := sampleImageLines, ScanErr := none } rfl rfl rfl).1).trans
      (by rfl),
    by rfl⟩

/-! ## The version pattern of `getImageList` -/

theorem Regex.matches_nothing (w : List Char) : ¬ Regex.Matches .nothing w := by
  intro h; cases h

theorem Regex.matches_epsilon_iff (w : List Char) : Regex.Matches .epsilon w ↔ w = [] := by
  constructor
  · intro h; cases h; rfl
  · rintro rfl; exact .epsilon

theorem Regex.matches_range_iff (lo hi : Char) (w : List Char) :
    Regex.Matches (.range lo hi) w ↔ ∃ c, w = [c] ∧ lo ≤ c ∧ c ≤ hi := by
  constructor
  · intro h
    cases h with
    | range _ _ c h1 h2 => exact ⟨c, rfl, h1, h2⟩
  · rintro ⟨c, rfl, h1, h2⟩
    exact .range lo hi c h1 h2

theorem Regex.matches_seq_iff (r s : Regex) (w : List Char) :
    Regex.Matches (.seq r s) w ↔ ∃ u v, w = u ++ v ∧ Regex.Matches r u ∧ Regex.Matches s v := by
  constructor
  · intro h
    cases h with
    | seq _ _ u v h1 h2 => exact ⟨u, v, rfl, h1, h2⟩
  · rintro ⟨u, v, rfl, h1, h2⟩
    exact .seq r s u v h1 h2

theorem Regex.matches_alt_iff (r s : Regex) (w : List Char) :
    Regex.Matches (.alt r s) w ↔ Regex.Matches r w ∨ Regex.Matches s w := by
  constructor
  · intro h
    cases h with
    | altLeft _ _ _ h1 => exact Or.inl h1
    | altRight _ _ _ h1 => exact Or.inr h1
  · rintro (h | h)
    · exact .altLeft r s w h
    · exact .altRight r s w h

theorem Regex.nullable_iff (r : Regex) : r.nullable = true ↔ Regex.Matches r [] := by
  induction r with
  | nothing => simp [Regex.nullable, Regex.matches_nothing]
  | epsilon => simp [Regex.nullable, Regex.matches_epsilon_iff]
  | range lo hi => simp [Regex.nullable, Regex.matches_range_iff]
  | seq r s ihr ihs =>
    simp only [Regex.nullable, Bool.and_eq_true, ihr, ihs, Regex.matches_seq_iff]
    constructor
    · rintro ⟨h1, h2⟩
      exact ⟨[], [], rfl, h1, h2⟩
    · rintro ⟨u, v, huv, h1, h2⟩
      have hu : u = [] := (List.append_eq_nil.mp huv.symm).1
      have hv : v = [] := (List.append_eq_nil.mp huv.symm).2
      subst hu; subst hv
      exact ⟨h1, h2⟩
  | alt r s ihr ihs =>
    simp only [Regex.nullable, Bool.or_eq_true, ihr, ihs, Regex.matches_alt_iff]
  | star r _ =>
    simp only [Regex.nullable, true_iff]
    exact .starNil r

/-- A match of `r*` that starts with the character `c` starts with a match of
`r` that starts with `c`. -/
theorem Regex.matches_star_cons (r : Regex) (c : Char) (w t : List Char)
    (h : Regex.Matches (.star r) w) (hw : w = c :: t) :
    ∃ u v, t = u ++ v ∧ Regex.Matches r (c :: u) ∧ Regex.Matches (.star r) v := by
  generalize hr : Regex.star r = q at h
  induction h with
  | epsilon => cases hr
  | range => cases hr
  | seq => cases hr
  | altLeft => cases hr
  | altRight => cases hr
  | starNil => cases hw
  | starCons r' u v h1 h2 _ ih2 =>
    cases hr
    cases u with
    | nil => exact ih2 hw rfl
    | cons c' u' =>
      simp only [List.cons_append, List.cons.injEq] at hw
      obtain ⟨rfl, rfl⟩ := hw
      exact ⟨u', v, rfl, h1, h2⟩

theorem Regex.matches_deriv_iff (r : Regex) (c : Char) (t : List Char) :
    Regex.Matches (r.deriv c) t ↔ Regex.Matches r (c :: t) := by
  induction r generalizing t with
  | nothing => simp [Regex.deriv, Regex.matches_nothing]
  | epsilon => simp [Regex.deriv, Regex.matches_nothing, Regex.matches_epsilon_iff]
  | range lo hi =>
    by_cases hc : lo ≤ c ∧ c ≤ hi
    · simp only [Regex.deriv, hc, and_self, if_true, Regex.matches_epsilon_iff,
        Regex.matches_range_iff]
      constructor
      · rintro rfl
        exact ⟨c, rfl, hc.1, hc.2⟩
      · rintro ⟨c', h, _⟩
        simp only [List.cons.injEq] at h
        exact h.2
    · simp only [Regex.deriv, hc, if_false, Regex.matches_range_iff]
      constructor
      · intro h; exact absurd h (Regex.matches_nothing _)
      · rintro ⟨c', h, h1, h2⟩
        simp only [List.cons.injEq] at h
        obtain ⟨rfl, _⟩ := h
        exact absurd ⟨h1, h2⟩ hc
  | seq r s ihr ihs =>
    have hmain : (Regex.Matches (.seq (r.deriv c) s) t ∨
        (Regex.Matches r [] ∧ Regex.Matches (s.deriv c) t)) ↔
        Regex.Matches (.seq r s) (c :: t) := by
      constructor
      · rintro (h | ⟨h0, h⟩)
        · obtain ⟨u, v, rfl, h1, h2⟩ := (Regex.matches_seq_iff _ _ _).mp h
          exact .seq r s (c :: u) v ((ihr u).mp h1) h2
        · exact .seq r s [] (c :: t) h0 ((ihs t).mp h)
      · intro h
        obtain ⟨u, v, huv, h1, h2⟩ := (Regex.matches_seq_iff _ _ _).mp h
        cases u with
        | nil =>
          simp only [List.nil_append] at huv
          subst huv
          exact Or.inr ⟨h1, (ihs t).mpr h2⟩
        | cons c' u' =>
          simp only [List.cons_append, List.cons.injEq] at huv
          obtain ⟨rfl, rfl⟩ := huv
          exact Or.inl ((Regex.matches_seq_iff _ _ _).mpr ⟨u', v, rfl, (ihr u').mpr h1, h2⟩)
    by_cases hn : r.nullable = true
    · have h0 : Regex.Matches r [] := (Regex.nullable_iff r).mp hn
      simp only [Regex.deriv, hn, if_true, Regex.matches_alt_iff]
      rw [← hmain]
      simp [h0]
    · have h0 : ¬ Regex.Matches r [] := fun h => hn ((Regex.nullable_iff r).mpr h)
      simp only [Regex.deriv, hn]
      rw [← hmain]
      simp [h0]
  | alt r s ihr ihs =>
    simp only [Regex.deriv, Regex.matches_alt_iff, ihr, ihs]
  | star r ih =>
    simp only [Regex.deriv, Regex.matches_seq_iff]
    constructor
    · rintro ⟨u, v, rfl, h1, h2⟩
      exact .starCons r (c :: u) v ((ih u).mp h1) h2
    · intro h
      obtain ⟨u, v, huv, h1, h2⟩ := Regex.matches_star_cons r c _ t h rfl
      exact ⟨u, v, huv, (ih u).mpr h1, h2⟩

/-- The matcher by derivatives decides the texts of the expression. -/
theorem Regex.matchesChars_iff (r : Regex) (w : List Char) :
    r.matchesChars w = true ↔ Regex.Matches r w := by
  induction w generalizing r with
  | nil => simp [Regex.matchesChars, Regex.nullable_iff]
  | cons c t ih => simp [Regex.matchesChars, ih, Regex.matches_deriv_iff]

theorem Regex.matches_chr_iff (c : Char) (w : List Char) :
    Regex.Matches (.chr c) w ↔ w = [c] := by
  unfold Regex.chr
  rw [Regex.matches_range_iff]
  constructor
  · rintro ⟨x, rfl, h1, h2⟩
    rw [le_antisymm h2 h1]
  · rintro rfl
    exact ⟨c, rfl, le_refl _, le_refl _⟩

theorem Regex.matches_star_range (lo hi : Char) (w : List Char)
    (h : Regex.Matches (.star (.range lo hi)) w) : ∀ c ∈ w, lo ≤ c ∧ c ≤ hi := by
  generalize hr : Regex.star (.range lo hi) = q at h
  induction h with
  | epsilon => cases hr
  | range => cases hr
  | seq => cases hr
  | altLeft => cases hr
  | altRight => cases hr
  | starNil => simp
  | starCons r' u v h1 _ _ ih2 =>
    cases hr
    obtain ⟨x, rfl, hx1, hx2⟩ := (Regex.matches_range_iff _ _ _).mp h1
    intro c hc
    rcases List.mem_append.mp hc with hc | hc
    · rw [List.mem_singleton] at hc
      subst hc
      exact ⟨hx1, hx2⟩
    · exact ih2 rfl c hc

theorem Regex.matches_star_range_iff (lo hi : Char) (w : List Char) :
    Regex.Matches (.star (.range lo hi)) w ↔ ∀ c ∈ w, lo ≤ c ∧ c ≤ hi := by
  constructor
  · exact Regex.matches_star_range lo hi w
  · intro h
    induction w with
    | nil => exact .starNil _
    | cons c t ih =>
      have hc := h c (List.mem_cons_self _ _)
      exact .starCons _ [c] t (.range lo hi c hc.1 hc.2)
        (ih (fun x hx => h x (List.mem_cons_of_mem _ hx)))

theorem Regex.matches_plus_range_iff (lo hi : Char) (w : List Char) :
    Regex.Matches (.plus (.range lo hi)) w ↔ w ≠ [] ∧ ∀ c ∈ w, lo ≤ c ∧ c ≤ hi := by
  unfold Regex.plus
  rw [Regex.matches_seq_iff]
  constructor
  · rintro ⟨u, v, rfl, h1, h2⟩
    obtain ⟨x, rfl, hx1, hx2⟩ := (Regex.matches_range_iff _ _ _).mp h1
    refine ⟨by simp, ?_⟩
    intro c hc
    rcases List.mem_append.mp hc with hc | hc
    · rw [List.mem_singleton] at hc
      subst hc
      exact ⟨hx1, hx2⟩
    · exact Regex.matches_star_range lo hi v h2 c hc
  · rintro ⟨hne, hall⟩
    cases w with
    | nil => exact absurd rfl hne
    | cons c t =>
      have hc := hall c (List.mem_cons_self _ _)
      exact ⟨[c], t, rfl, .range lo hi c hc.1 hc.2,
        (Regex.matches_star_range_iff lo hi t).mpr (fun x hx => hall x (List.mem_cons_of_mem _ hx))⟩

/-- The texts of the version pattern: an optional `v`, a digit from 0 to 5, a
dot, and then either a digit from 0 to 7, a dot and one or more digits, or
`8.0`. -/
theorem versionRegex_matches_iff (w : List Char) :
    Regex.Matches versionRegex w ↔
      ∃ (v : List Char) (a b : Char) (c : List Char),
        w = v ++ [a, '.', b, '.'] ++ c ∧ (v = [] ∨ v = ['v']) ∧ '0' ≤ a ∧ a ≤ '5' ∧
        (('0' ≤ b ∧ b ≤ '7' ∧ c ≠ [] ∧ ∀ ch ∈ c, '0' ≤ ch ∧ ch ≤ '9') ∨
          (b = '8' ∧ c = ['0'])) := by
  unfold versionRegex Regex.opt
  simp only [Regex.matches_seq_iff, Regex.matches_alt_iff, Regex.matches_chr_iff,
    Regex.matches_epsilon_iff, Regex.matches_range_iff, Regex.matches_plus_range_iff]
  constructor
  · rintro ⟨v, _, rfl, hv, _, _, rfl, ⟨a, rfl, ha1, ha2⟩, _, _, rfl, rfl, hrest⟩
    rcases hrest with ⟨_, _, rfl, ⟨b, rfl, hb1, hb2⟩, _, c, rfl, rfl, hc1, hc2⟩ |
      ⟨_, _, rfl, rfl, _, _, rfl, rfl, rfl⟩
    · exact ⟨v, a, b, c, by simp, hv.symm, ha1, ha2, Or.inl ⟨hb1, hb2, hc1, hc2⟩⟩
    · exact ⟨v, a, '8', ['0'], by simp, hv.symm, ha1, ha2, Or.inr ⟨rfl, rfl⟩⟩
  · rintro ⟨v, a, b, c, rfl, hv, ha1, ha2, hrest⟩
    refine ⟨v, [a, '.', b, '.'] ++ c, by simp, hv.symm, [a], ['.', b, '.'] ++ c, by simp,
      ⟨a, rfl, ha1, ha2⟩, ['.'], [b, '.'] ++ c, by simp, rfl, ?_⟩
    rcases hrest with ⟨hb1, hb2, hc1, hc2⟩ | ⟨rfl, rfl⟩
    · exact Or.inl ⟨[b], ['.'] ++ c, by simp, ⟨b, rfl, hb1, hb2⟩, ['.'], c, by simp, rfl,
        hc1, hc2⟩
    · exact Or.inr ⟨['8'], ['.', '0'], by simp, rfl, ['.'], ['0'], by simp, rfl, rfl⟩

theorem digitValue_le (c hi : Char) (h : c ≤ hi) : digitValue c ≤ digitValue hi := by
  have h' : c.toNat ≤ hi.toNat := h
  unfold digitValue
  omega

/-- A run of digits followed by a dot and more, read as one character, a dot
and more, is that one character. -/
theorem digits_dot_eq (digits : List Char) (a : Char) (rest rest' : List Char)
    (hne : digits ≠ []) (hdigits : ∀ ch ∈ digits, '0' ≤ ch ∧ ch ≤ '9')
    (h : digits ++ '.' :: rest = a :: '.' :: rest') : digits = [a] ∧ rest = rest' := by
  cases digits with
  | nil => exact absurd rfl hne
  | cons m ms =>
    simp only [List.cons_append, List.cons.injEq] at h
    obtain ⟨rfl, h⟩ := h
    cases ms with
    | nil =>
      simp only [List.nil_append, List.cons.injEq, true_and] at h
      exact ⟨rfl, h⟩
    | cons m2 ms2 =>
      simp only [List.cons_append, List.cons.injEq] at h
      have hm2 := hdigits m2 (by simp)
      rw [h.1] at hm2
      exact absurd hm2.1 (by decide)

/-- The pattern matches a version `major.minor.patch`, written with or
without a leading `v`, only when the version is at most 5.8.0. -/
theorem versionRegex_version_le (v major minor patch : List Char)
    (hv : v = [] ∨ v = ['v'])
    (hmajor : major ≠ [] ∧ ∀ ch ∈ major, '0' ≤ ch ∧ ch ≤ '9')
    (hminor : minor ≠ [] ∧ ∀ ch ∈ minor, '0' ≤ ch ∧ ch ≤ '9')
    (h : Regex.Matches versionRegex (v ++ major ++ '.' :: minor ++ '.' :: patch)) :
    versionLE (digitsValue major, digitsValue minor, digitsValue patch) (5, 8, 0) := by
  obtain ⟨v', a, b, c, hw, hv', ha1, ha2, hrest⟩ := (versionRegex_matches_iff _).mp h
  have hbody : major ++ '.' :: minor ++ '.' :: patch = [a, '.', b, '.'] ++ c := by
    cases major with
    | nil => exact absurd rfl hmajor.1
    | cons m ms =>
      have hm := hmajor.2 m (by simp)
      rcases hv with rfl | rfl <;> rcases hv' with rfl | rfl
      · simpa using hw
      · simp only [List.nil_append, List.cons_append, List.cons.injEq] at hw
        rw [hw.1] at hm
        exact absurd hm.2 (by decide)
      · simp only [List.nil_append, List.cons_append, List.singleton_append,
          List.cons.injEq] at hw
        rw [← hw.1] at ha2
        exact absurd ha2 (by decide)
      · simpa using hw
  simp only [List.cons_append, List.nil_append, List.append_assoc] at hbody
  obtain ⟨hmaj, hbody⟩ := digits_dot_eq major a _ _ hmajor.1 hmajor.2 hbody
  obtain ⟨hmin, hpatch⟩ := digits_dot_eq minor b _ _ hminor.1 hminor.2 hbody
  subst hmaj; subst hmin; subst hpatch
  have hA : digitValue a ≤ 5 := digitValue_le a '5' ha2
  have hval : ∀ x : Char, digitsValue [x] = digitValue x := by
    intro x; simp [digitsValue]
  rw [hval, hval]
  unfold versionLE
  simp only
  rcases hrest with ⟨_, hb2, _, _⟩ | ⟨rfl, rfl⟩
  · have hB : digitValue b ≤ 7 := digitValue_le b '7' hb2
    omega
  · have h8 : digitValue '8' = 8 := by decide
    have h0 : digitsValue ['0'] = 0 := by decide
    omega

theorem getImageList_not_ok (filepathMatch : String → String → Bool × Option String)
    (httpGet : String → Except String Response) (c : cosignConfig) (resp : Response)
    (hget : httpGet c.getImageReleaseListURL = .ok resp) (hstatus : resp.StatusCode ≠ 200)
    (hversion : versionRegex.MatchString c.version = false) :
    c.getImageList filepathMatch httpGet =
      .error ("failed to fetch list of images - check that " ++ c.version
        ++ " is a valid Sourcegraph release: HTTP status " ++ toString resp.StatusCode) := by
  simp [cosignConfig.getImageList, hget, hstatus, hversion]

/-- C21: the pattern of `getImageList` matches no version above 5.8.0. Every
string it matches is an optional `v`, a digit `A` from 0 to 5, a dot, a digit
`B`, a dot and a rest `C`, where `B` is from 0 to 7 and `C` is a run of
digits, or `B` is 8 and `C` is `0`; so `(A, B, C)` is at most `(5, 8, 0)`,
and a version `major.minor.patch` that is matched is at most 5.8.0. The
versions 5.8.1, 5.9.0, 5.10.0 and 6.0.0 are not matched, and a response other
than 200 for a version that is not matched gives the error "failed to fetch
list of images". -/
theorem versionRegex_matches_only_up_to_5_8_0 :
    (∀ version : String, versionRegex.MatchString version = true →
      ∃ (v : List Char) (a b : Char) (c : List Char),
        version.data = v ++ [a, '.', b, '.'] ++ c ∧ (v = [] ∨ v = ['v']) ∧
        '0' ≤ a ∧ a ≤ '5' ∧
        (('0' ≤ b ∧ b ≤ '7' ∧ c ≠ [] ∧ ∀ ch ∈ c, '0' ≤ ch ∧ ch ≤ '9') ∨
          (b = '8' ∧ c = ['0'])) ∧
        versionLE (digitValue a, digitValue b, digitsValue c) (5, 8, 0)) ∧
    (∀ v major minor patch : List Char, (v = [] ∨ v = ['v']) →
      (major ≠ [] ∧ ∀ ch ∈ major, '0' ≤ ch ∧ ch ≤ '9') →
      (minor ≠ [] ∧ ∀ ch ∈ minor, '0' ≤ ch ∧ ch ≤ '9') →
      versionRegex.MatchString (String.mk (v ++ major ++ '.' :: minor ++ '.' :: patch)) = true →
      versionLE (digitsValue major, digitsValue minor, digitsValue patch) (5, 8, 0)) ∧
    versionRegex.MatchString "5.8.1" = false ∧
    versionRegex.MatchString "5.9.0" = false ∧
    versionRegex.MatchString "5.10.0" = false ∧
    versionRegex.MatchString "6.0.0" = false ∧
    (∀ (filepathMatch : String → String → Bool × Option String)
        (httpGet : String → Except String Response) (c : cosignConfig) (resp : Response),
      httpGet c.getImageReleaseListURL = .ok resp → resp.StatusCode ≠ 200 →
      versionRegex.MatchString c.version = false →
      c.getImageList filepathMatch httpGet =
        .error ("failed to fetch list of images - check that " ++ c.version
          ++ " is a valid Sourcegraph release: HTTP status " ++ toString resp.StatusCode)) ∧
    (∀ version ∈ ["5.8.1", "5.9.0", "5.10.0", "6.0.0"],
      (cosignFor version [] []).getImageList sampleFilepathMatch (answerWith 404 []) =
        .error ("failed to fetch list of images - check that " ++ version
          ++ " is a valid Sourcegraph release: HTTP status 404")) := by
  refine ⟨?_, ?_, by decide, by decide, by decide, by decide, getImageList_not_ok, ?_⟩
  · intro version h
    obtain ⟨v, a, b, c, hw, hv, ha1, ha2, hrest⟩ :=
      (versionRegex_matches_iff _).mp ((Regex.matchesChars_iff _ _).mp h)
    refine ⟨v, a, b, c, hw, hv, ha1, ha2, hrest, ?_⟩
    have hA : digitValue a ≤ 5 := digitValue_le a '5' ha2
    unfold versionLE
    simp only
    rcases hrest with ⟨_, hb2, _, _⟩ | ⟨rfl, rfl⟩
    · have hB : digitValue b ≤ 7 := digitValue_le b '7' hb2
      omega
    · have h8 : digitValue '8' = 8 := by decide
      have h0 : digitsValue ['0'] = 0 := by decide
      omega
  · intro v major minor patch hv hmajor hminor h
    exact versionRegex_version_le v major minor patch hv hmajor hminor
      ((Regex.matchesChars_iff _ _).mp h)
  · intro version hmem
    simp only [List.mem_cons, List.mem_singleton, List.not_mem_nil, or_false] at hmem
    rcases hmem with rfl | rfl | rfl | rfl <;> rfl

/-- The version v5.7.10 is matched, and it is at most 5.8.0. -/
theorem versionRegex_matches_only_up_to_5_8_0_witness :
    versionRegex.MatchString (String.mk (['v'] ++ ['5'] ++ '.' :: ['7'] ++ '.' :: ['1', '0'])) =
      true ∧
    versionLE (digitsValue ['5'], digitsValue ['7'], digitsValue ['1', '0']) (5, 8, 0) :=
  ⟨by decide,
    versionRegex_matches_only_up_to_5_8_0.2.1 ['v'] ['5'] ['7'] ['1', '0'] (Or.inr rfl)
      (by decide) (by decide) (by decide)⟩

end SrcCli
